import Mathlib

/-!
Verification of the easycd (eacd / simplecd) continuous-deployment tool.

Shallow embedding of the daemon and client core: the delta negotiator
(`/check`), the streamed-response sentinel protocol, the systemd
environment drop-in reconciler, the package-ownership registry
reconciler, the rollback snapshot store, the archive extractor, the
per-address sliding-window rate limiter, and the HTTP handlers'
control flow.

Conventions used throughout:
* Go strings are modelled as Lean `String` where only equality,
  concatenation and map lookup matter; where byte-level structure
  matters (path manipulation) they are modelled as `List Char`.
* A Go `map[string]T` is modelled as a function `String → Option T`;
  a Go loop `for k := range m` touches each key at most once, so such
  loops are rendered as pointwise definitions or folds over
  deduplicated key lists (Go map iteration order is unspecified and
  all stated properties are order-insensitive).
* Filesystem state is a function from paths to optional contents;
  subprocess and I/O outcomes are oracle parameters.
-/

/-! ### Delta negotiator (`internal/delta/hash.go`, `handleCheck` in `cmd/simplecdd/main.go`) -/

/-- One element of the `/check` request body: `{dest, hash}`. -/
structure FileHashEntry where
  dest : String
  hash : String
deriving DecidableEq, Repr

/-- Assignment `m[k] = v` on a Go `map[string]string`. -/
def mapInsert (m : String → Option String) (k v : String) : String → Option String :=
  fun x => if x = k then some v else m x

/-- The loop `for i, f := range req.Files { clientHashes[f.Dest] = f.Hash }`:
for a duplicated destination the last entry wins, as in a Go map. -/
def buildClientHashes (files : List FileHashEntry) : String → Option String :=
  files.foldl (fun m f => mapInsert m f.dest f.hash) (fun _ => none)

/-- `delta.HashExistingFiles`: hash each destination that exists on disk,
silently omitting destinations whose file is missing or unreadable.
`hashFile dest` is the hasher oracle: `some h` is the lowercase hex
SHA-256 of the file's bytes, `none` means `hashFile` returned an error
(no readable file at `dest`). The result maps each hashable declared
destination to `"sha256:" ++ h`. -/
def HashExistingFiles (hashFile : String → Option String) (dests : List String) :
    String → Option String :=
  fun dest => if dest ∈ dests then (hashFile dest).map (fun h => "sha256:" ++ h) else none

/-- Reading `m[k]` from a Go `map[string]string`: a missing key yields `""`. -/
def goMapGet (m : String → Option String) (k : String) : String :=
  (m k).getD ""

/-- The body of `handleCheck`: build the client hash map, hash the
existing server files, and return every declared destination whose
server-side entry (empty string when absent) differs from the client
hash.  Go iterates the `clientHashes` map, i.e. the deduplicated
destination list, in unspecified order. -/
def checkUpload (hashFile : String → Option String) (files : List FileHashEntry) :
    List String :=
  let dests := files.map (fun f => f.dest)
  let clientHashes := buildClientHashes files
  let serverHashes := HashExistingFiles hashFile dests
  dests.dedup.filter (fun dest => goMapGet serverHashes dest ≠ goMapGet clientHashes dest)

/-- The last hash inserted for key `x` while walking `files` left to right. -/
def lastHash : List FileHashEntry → String → Option String
  | [], _ => none
  | f :: fs, x =>
    match lastHash fs x with
    | some v => some v
    | none => if x = f.dest then some f.hash else none

theorem foldl_mapInsert_apply (files : List FileHashEntry)
    (m : String → Option String) (x : String) :
    (files.foldl (fun m f => mapInsert m f.dest f.hash) m) x =
      match lastHash files x with
      | some v => some v
      | none => m x := by
  induction files generalizing m with
  | nil => simp [lastHash]
  | cons f fs ih =>
    simp only [List.foldl_cons]
    rw [ih]
    simp only [lastHash]
    cases hfs : lastHash fs x with
    | some v => simp
    | none =>
      simp only [mapInsert]
      by_cases hx : x = f.dest <;> simp [hx]

theorem lastHash_eq_none_iff (files : List FileHashEntry) (x : String) :
    lastHash files x = none ↔ x ∉ files.map (fun f => f.dest) := by
  induction files with
  | nil => simp [lastHash]
  | cons f fs ih =>
    simp only [lastHash, List.map_cons, List.mem_cons, not_or]
    cases h : lastHash fs x with
    | some v =>
      have hx : x ∈ List.map (fun f => f.dest) fs := by
        by_contra hc
        have hnone := ih.mpr hc
        rw [h] at hnone
        exact Option.noConfusion hnone
      simp [hx]
    | none =>
      rw [h] at ih
      simp only [true_iff] at ih
      by_cases hx : x = f.dest <;> simp [hx, ih]

theorem lastHash_mem (files : List FileHashEntry) (x : String) (v : String)
    (h : lastHash files x = some v) : ∃ f ∈ files, f.dest = x ∧ f.hash = v := by
  induction files with
  | nil => simp [lastHash] at h
  | cons f fs ih =>
    simp only [lastHash] at h
    cases hfs : lastHash fs x with
    | some w =>
      simp only [hfs] at h
      obtain ⟨g, hg, hgd, hgh⟩ := ih (hfs.trans h)
      exact ⟨g, List.mem_cons_of_mem _ hg, hgd, hgh⟩
    | none =>
      simp only [hfs] at h
      by_cases hx : x = f.dest
      · simp [hx] at h
        exact ⟨f, List.mem_cons_self _ _, hx.symm, h⟩
      · simp [hx] at h

theorem buildClientHashes_eq (files : List FileHashEntry) (x : String) :
    buildClientHashes files x = lastHash files x := by
  rw [buildClientHashes, foldl_mapInsert_apply]
  cases lastHash files x <;> rfl

/-- Claim C2 (amended): provided every submitted client hash is non-empty
(the real client only ever sends `"sha256:" ++ hex`), the upload set
returned by `/check` contains exactly the declared destinations where
either no readable file exists on the server or the server-side SHA-256
fingerprint of the existing file differs from the client's fingerprint.
Without the non-emptiness proviso the claim fails, because a missing
server file is looked up as the Go zero value `""`, which compares equal
to an empty client hash (see the counterexample). -/
theorem claim_C2 (hashFile : String → Option String) (files : List FileHashEntry)
    (hne : ∀ f ∈ files, f.hash ≠ "") (d : String) :
    d ∈ checkUpload hashFile files ↔
      d ∈ files.map (fun f => f.dest) ∧
        (hashFile d = none ∨
          ∃ h, hashFile d = some h ∧
            "sha256:" ++ h ≠ goMapGet (buildClientHashes files) d) := by
  simp only [checkUpload, List.mem_filter, List.mem_dedup, decide_eq_true_eq]
  by_cases hd : d ∈ files.map (fun f => f.dest)
  · obtain ⟨v, hv⟩ : ∃ v, lastHash files d = some v := by
      cases h : lastHash files d with
      | none => exact absurd hd ((lastHash_eq_none_iff files d).mp h)
      | some v => exact ⟨v, rfl⟩
    obtain ⟨f, hf, _, hfh⟩ := lastHash_mem files d v hv
    have hvne : v ≠ "" := hfh ▸ hne f hf
    have hclient : goMapGet (buildClientHashes files) d = v := by
      rw [goMapGet, buildClientHashes_eq, hv]; rfl
    rw [hclient]
    cases hh : hashFile d with
    | none =>
      have hserver : goMapGet (HashExistingFiles hashFile (files.map (fun f => f.dest))) d = "" := by
        rw [goMapGet, HashExistingFiles]
        simp [hd, hh]
      rw [hserver]
      simp [hd, hh, Ne.symm hvne]
    | some h =>
      have hserver : goMapGet (HashExistingFiles hashFile (files.map (fun f => f.dest))) d =
          "sha256:" ++ h := by
        rw [goMapGet, HashExistingFiles]
        simp [hd, hh]
      rw [hserver]
      simp [hd, hh]
  · simp [hd]

/-- Claim C2 as literally stated is false at a concrete input: a `/check`
request declaring destination `"/a"` with an empty client hash, against a
server with no readable file at `"/a"`, returns an empty upload set even
though the claimed equation requires `"/a"` to be uploaded (no file
exists on the server). -/
theorem claim_C2_cex :
    ¬ (("/a" ∈ checkUpload (fun _ => none) [⟨"/a", ""⟩]) ↔
        ("/a" ∈ ([⟨"/a", ""⟩] : List FileHashEntry).map (fun f => f.dest) ∧
          ((fun (_ : String) => (none : Option String)) "/a" = none ∨
            ∃ h, (fun (_ : String) => (none : Option String)) "/a" = some h ∧
              "sha256:" ++ h ≠ goMapGet (buildClientHashes [⟨"/a", ""⟩]) "/a"))) := by
  intro hcl
  have hmem := hcl.mpr ⟨by decide, Or.inl rfl⟩
  revert hmem
  decide

theorem claim_C2_witness :
    (∀ f ∈ [(⟨"/a", "sha256:aa"⟩ : FileHashEntry)], f.hash ≠ "") ∧
    ("/a" ∈ checkUpload (fun _ => none) [⟨"/a", "sha256:aa"⟩] ↔
      "/a" ∈ ([(⟨"/a", "sha256:aa"⟩ : FileHashEntry)]).map (fun f => f.dest) ∧
        ((fun (_ : String) => (none : Option String)) "/a" = none ∨
          ∃ h, (fun (_ : String) => (none : Option String)) "/a" = some h ∧
            "sha256:" ++ h ≠ goMapGet (buildClientHashes [⟨"/a", "sha256:aa"⟩]) "/a")) :=
  ⟨by decide, claim_C2 (fun _ => none) [⟨"/a", "sha256:aa"⟩] (by decide) "/a"⟩

/-! ### Streamed-response sentinel (`streamAndCheck` in `internal/cmd/deploy.go`) -/

/-- The literal sentinel line the client requires as the final line of a
streamed `/deploy` or `/rollback` response. -/
def sentinelLine : String := "[eacd] STATUS:OK"

/-- The scanner loop of `streamAndCheck`: `prev` starts as `""` and is
overwritten with each scanned line, so after the loop it holds the final
line of the stream (or `""` for an empty stream). -/
def streamFinalLine (lines : List String) : String :=
  lines.foldl (fun _prev line => line) ""

/-- `streamAndCheck` returns `nil` (success) exactly when the final
buffered line equals the sentinel. -/
def streamAndCheckOk (lines : List String) : Bool :=
  streamFinalLine lines == sentinelLine

/-- The client's overall verdict for a `/deploy` (or `/rollback`)
response: a non-200 status is an error before the stream is even
scanned; a 200 response succeeds iff `streamAndCheck` accepts it. -/
def deployClientSuccess (statusCode : Nat) (lines : List String) : Bool :=
  statusCode == 200 && streamAndCheckOk lines

/-- Modelled from the spec: the eacdd server handler that writes the
sentinel is absent from the sources (only the earlier simplecd-era
daemon `cmd/simplecdd/main.go` is present, which predates the sentinel);
per the spec, a deployment or rollback that completes successfully
terminates its streamed plain-text response with the literal sentinel
line `[<app>] STATUS:OK` after the phase log lines. -/
def serverSuccessStream (phases : List String) : List String :=
  phases ++ [sentinelLine]

theorem streamFinalLine_append (phases : List String) (s : String) :
    streamFinalLine (phases ++ [s]) = s := by
  simp [streamFinalLine, List.foldl_append]

/-- Claim C1: a successfully completing deployment (or rollback)
terminates its stream with the sentinel line and the client then reports
success; conversely the client reports success exactly when the sentinel
is the final line of a 200 stream, and its absence is failure
regardless of the HTTP status. (The server side is modelled from the
spec, see `serverSuccessStream`; the client side is embedded from
`streamAndCheck`.) -/
theorem claim_C1 (phases : List String) (status : Nat) (lines : List String) :
    deployClientSuccess 200 (serverSuccessStream phases) = true ∧
    (streamAndCheckOk lines = true ↔ streamFinalLine lines = sentinelLine) ∧
    (streamFinalLine lines ≠ sentinelLine → deployClientSuccess status lines = false) := by
  refine ⟨?_, ?_, ?_⟩
  · simp [deployClientSuccess, streamAndCheckOk, serverSuccessStream, streamFinalLine_append]
  · simp [streamAndCheckOk]
  · intro hne
    simp [deployClientSuccess, streamAndCheckOk, hne]

theorem claim_C1_witness :
    streamFinalLine ["[eacd] Placing /opt/app"] ≠ sentinelLine ∧
    deployClientSuccess 500 ["[eacd] Placing /opt/app"] = false ∧
    deployClientSuccess 200 (serverSuccessStream ["[eacd] Placing /opt/app"]) = true :=
  ⟨by decide,
   (claim_C1 ["[eacd] Placing /opt/app"] 500 ["[eacd] Placing /opt/app"]).2.2 (by decide),
   (claim_C1 ["[eacd] Placing /opt/app"] 500 ["[eacd] Placing /opt/app"]).1⟩

/-! ### Systemd environment drop-in (`reconcileServiceEnv` in `internal/inventory/services.go`) -/

/-- Byte-wise lexicographic comparison of two strings (the order used by
Go's `sort.Strings`). -/
def goStrLe (a b : List Char) : Bool :=
  match a, b with
  | [], _ => true
  | _ :: _, [] => false
  | c :: as, d :: bs => if c = d then goStrLe as bs else decide (c < d)

/-- Insert into a sorted list, preserving `goStrLe` order. -/
def sortInsert (x : String) : List String → List String
  | [] => [x]
  | y :: ys => if goStrLe x.data y.data then x :: y :: ys else y :: sortInsert x ys

/-- `sort.Strings`: sort a key list byte-wise lexicographically. -/
def sortStrings : List String → List String
  | [] => []
  | x :: xs => sortInsert x (sortStrings xs)

/-- `strings.ReplaceAll(v, quote, backslash-quote)` specialised to the
one-character pattern used by the drop-in writer. -/
def replaceQuote : List Char → List Char
  | [] => []
  | c :: rest =>
    if c = '"' then '\\' :: '"' :: replaceQuote rest else c :: replaceQuote rest

def escapeQuotes (v : String) : String := ⟨replaceQuote v.data⟩

/-- Reading `svc.Env[k]` (a missing key yields the zero value `""`;
inventory env maps have one value per key). -/
def envGet (env : List (String × String)) (k : String) : String :=
  ((env.find? (fun p => p.1 = k)).map (fun p => p.2)).getD ""

/-- The deterministic drop-in content: a `[Service]` header followed by
one `Environment="K=V"` line per key in sorted order, quotes in values
escaped. -/
def dropinContent (env : List (String × String)) : String :=
  let keys := sortStrings (env.map (fun p => p.1))
  "[Service]\n" ++
    String.join (keys.map (fun k =>
      "Environment=\"" ++ k ++ "=" ++ escapeQuotes (envGet env k) ++ "\"\n"))

/-- The filesystem effect `reconcileServiceEnv` chooses for the drop-in
file. -/
inductive EnvAction
  | keep
  | writeFile (content : String)
  | deleteFile
deriving DecidableEq, Repr

/-- `reconcileServiceEnv`, success path: given the current drop-in file
content (`none` when the file does not exist) and the desired env map,
returns the env-changed flag and the chosen file action.  An empty env
deletes an existing drop-in; otherwise the computed content is written
unless it equals the existing content byte-for-byte, in which case
nothing is written and the service is not marked env-changed. -/
def reconcileServiceEnv (existing : Option String) (env : List (String × String)) :
    Bool × EnvAction :=
  if env.length = 0 then
    match existing with
    | some _ => (true, EnvAction.deleteFile)
    | none => (false, EnvAction.keep)
  else
    let content := dropinContent env
    if existing = some content then (false, EnvAction.keep)
    else (true, EnvAction.writeFile content)

/-- Applying the chosen action to the drop-in file state. -/
def applyEnvAction (existing : Option String) : EnvAction → Option String
  | EnvAction.keep => existing
  | EnvAction.writeFile c => some c
  | EnvAction.deleteFile => none

/-- Number of file writes an action performs. -/
def envWrites : EnvAction → Nat
  | EnvAction.writeFile _ => 1
  | _ => 0

/-- Claim C7: the drop-in content is a deterministic function of the env
map (sorted keys, escaped quotes); when the computed content equals the
existing file content byte-for-byte no write happens and the service is
not marked env-changed; hence applying the same non-empty env twice
writes the file at most once and marks the service env-changed at most
once (the second application never writes and never marks). -/
theorem claim_C7 (env : List (String × String)) (existing : Option String)
    (henv : env ≠ []) :
    (existing = some (dropinContent env) →
      reconcileServiceEnv existing env = (false, EnvAction.keep)) ∧
    reconcileServiceEnv
        (applyEnvAction existing (reconcileServiceEnv existing env).2) env =
      (false, EnvAction.keep) ∧
    envWrites (reconcileServiceEnv existing env).2 +
      envWrites (reconcileServiceEnv
        (applyEnvAction existing (reconcileServiceEnv existing env).2) env).2 ≤ 1 ∧
    ((reconcileServiceEnv existing env).1 = true →
      (reconcileServiceEnv
        (applyEnvAction existing (reconcileServiceEnv existing env).2) env).1 = false) := by
  have hlen : env.length ≠ 0 := fun h => henv (List.length_eq_zero.mp h)
  have hstate : applyEnvAction existing (reconcileServiceEnv existing env).2 =
      some (dropinContent env) := by
    rw [reconcileServiceEnv.eq_def]
    simp only [hlen, if_neg hlen]
    by_cases hex : existing = some (dropinContent env)
    · simp [hex, applyEnvAction]
    · simp [hex, applyEnvAction]
  have hsecond : reconcileServiceEnv
      (applyEnvAction existing (reconcileServiceEnv existing env).2) env =
      (false, EnvAction.keep) := by
    rw [hstate, reconcileServiceEnv.eq_def]
    simp [hlen]
  refine ⟨?_, hsecond, ?_, ?_⟩
  · intro hex
    rw [reconcileServiceEnv.eq_def]
    simp [hlen, hex]
  · rw [hsecond]
    rw [reconcileServiceEnv.eq_def]
    simp only [hlen, if_neg hlen]
    by_cases hex : existing = some (dropinContent env) <;> simp [hex, envWrites]
  · intro _
    rw [hsecond]

theorem claim_C7_witness :
    ([("PORT", "8080"), ("DB", "x")] : List (String × String)) ≠ [] ∧
    reconcileServiceEnv
        (applyEnvAction none
          (reconcileServiceEnv none [("PORT", "8080"), ("DB", "x")]).2)
        [("PORT", "8080"), ("DB", "x")] = (false, EnvAction.keep) :=
  ⟨by decide,
   (claim_C7 [("PORT", "8080"), ("DB", "x")] none (by decide)).2.1⟩

/-! ### Package ownership registry (`Reconcile` / `updateOwnership` in
`internal/inventory/reconcile.go`) -/

/-- The global `package_owners` map: package name to the owner list;
`none` models an absent key. -/
abbrev Registry := String → Option (List String)

/-- The per-project stored inventories, projected to their package
lists (the component the ownership invariant is about). -/
abbrev StoredMap := String → List String

/-- `containsStr`: linear scan for a string. -/
def containsStr : List String → String → Bool
  | [], _ => false
  | v :: vs, s => if v = s then true else containsStr vs s

/-- `removeStr`: keep every element different from `s` (the Go in-place
filter idiom `out := ss[:0]; ...`). -/
def removeStr (ss : List String) (s : String) : List String :=
  ss.filter (fun v => v ≠ s)

/-- `diffStrings`: `(toAdd, toRemove)` — elements of `desired` not in
`stored` and vice versa.  Go iterates the deduplicated key sets of
`toSet desired` / `toSet stored` in unspecified order; membership in
`storedSet` / `desiredSet` is list membership. -/
def diffStrings (desired stored : List String) : List String × List String :=
  (desired.dedup.filter (fun pkg => pkg ∉ stored),
   stored.dedup.filter (fun pkg => pkg ∉ desired))

/-- `updateOwnership`: add `project` as owner of every package in
`newPkgs` (unless already recorded), remove it from every package in
`oldPkgs` not in `newPkgs`, erasing keys whose owner list becomes
empty.  The two Go `range` loops touch every key at most once (the
remove loop skips keys in `newSet`), so the map update is rendered
pointwise. -/
def updateOwnership (R : Registry) (project : String) (newPkgs oldPkgs : List String) :
    Registry :=
  fun pkg =>
    if pkg ∈ newPkgs then
      let owners := (R pkg).getD []
      if containsStr owners project then some owners
      else some (owners ++ [project])
    else if pkg ∈ oldPkgs then
      let owners := removeStr ((R pkg).getD []) project
      if owners = [] then none else some owners
    else R pkg

/-- State threaded through the removal loop of `Reconcile`: the registry
plus the log-visible outcome lists (packages skipped because still
owned, packages whose remove command was invoked, packages whose remove
command exited non-zero and was logged as a warning). -/
structure PkgPhaseState where
  registry : Registry
  skipped : List String
  removed : List String
  warned : List String

/-- One iteration of `for _, pkg := range toRemove` in `Reconcile`:
skip when owners remain; otherwise invoke the remove command (recording
a warning when it exits non-zero — `removeOk pkg = false`) and delete
the registry key. -/
def removePhaseStep (removeOk : String → Bool) (acc : PkgPhaseState) (pkg : String) :
    PkgPhaseState :=
  let owners := (acc.registry pkg).getD []
  if owners.length > 0 then
    { acc with skipped := acc.skipped ++ [pkg] }
  else
    let acc1 := if removeOk pkg then acc else { acc with warned := acc.warned ++ [pkg] }
    { acc1 with
        removed := acc1.removed ++ [pkg],
        registry := fun k => if k = pkg then none else acc1.registry k }

/-- The whole removal loop. -/
def removePhase (R : Registry) (toRemove : List String) (removeOk : String → Bool) :
    PkgPhaseState :=
  toRemove.foldl (removePhaseStep removeOk)
    { registry := R, skipped := [], removed := [], warned := [] }

/-- The package part of `inventory.Reconcile`, as a pure state
transform: diff desired against stored, fail when a non-empty add set
fails to install (`installOk = false`), update ownership, run the
removal loop, and persist the new stored inventory and registry
(`saveOk = false` models a persistence failure, also an error).
`none` models `Reconcile` returning an error, in which case nothing is
persisted. -/
def reconcilePackages (R : Registry) (stored : StoredMap) (project : String)
    (desired : List String) (installOk saveOk : Bool) (removeOk : String → Bool) :
    Option (Registry × StoredMap × PkgPhaseState) :=
  let dsr := diffStrings desired (stored project)
  if dsr.1 ≠ [] ∧ installOk = false then none
  else
    let R1 := updateOwnership R project desired (stored project)
    let res := removePhase R1 dsr.2 removeOk
    if saveOk = false then none
    else some (res.registry, fun q => if q = project then desired else stored q, res)

/-- The ownership invariant: each package's owner set is exactly the set
of projects whose stored inventory contains it. -/
def RegistryInv (R : Registry) (stored : StoredMap) : Prop :=
  ∀ p q, q ∈ (R p).getD [] ↔ p ∈ stored q

/-- No registry key maps to an empty owner list (empty keys are erased). -/
def NoEmptyOwners (R : Registry) : Prop :=
  ∀ p, R p ≠ some []

theorem containsStr_iff (l : List String) (s : String) :
    containsStr l s = true ↔ s ∈ l := by
  induction l with
  | nil => simp [containsStr]
  | cons v vs ih =>
    simp only [containsStr, List.mem_cons]
    by_cases hv : v = s
    · simp [hv]
    · simp only [hv, if_false, ih]
      constructor
      · exact Or.inr
      · rintro (h | h)
        · exact absurd h.symm hv
        · exact h

theorem mem_removeStr (l : List String) (s q : String) :
    q ∈ removeStr l s ↔ q ∈ l ∧ q ≠ s := by
  simp [removeStr]

theorem updateOwnership_mem (R : Registry) (stored : StoredMap) (project : String)
    (desired : List String) (hinv : RegistryInv R stored) (p q : String) :
    q ∈ ((updateOwnership R project desired (stored project)) p).getD [] ↔
      p ∈ (if q = project then desired else stored q) := by
  have hRq := hinv p q
  simp only [updateOwnership]
  by_cases hd : p ∈ desired
  · rw [if_pos hd]
    by_cases hc : containsStr ((R p).getD []) project = true
    · rw [if_pos hc, Option.getD_some]
      by_cases hq : q = project
      · subst hq; rw [if_pos rfl]
        exact iff_of_true ((containsStr_iff _ _).mp hc) hd
      · rw [if_neg hq]; exact hRq
    · rw [if_neg hc, Option.getD_some, List.mem_append, List.mem_singleton]
      by_cases hq : q = project
      · subst hq; rw [if_pos rfl]
        exact iff_of_true (Or.inr rfl) hd
      · rw [if_neg hq]
        constructor
        · rintro (h | h)
          · exact hRq.mp h
          · exact absurd h hq
        · intro h; exact Or.inl (hRq.mpr h)
  · rw [if_neg hd]
    by_cases hs : p ∈ stored project
    · rw [if_pos hs]
      have hmem : ∀ ll : List String,
          q ∈ (if ll = [] then (none : Option (List String)) else some ll).getD [] ↔
            q ∈ ll := by
        intro ll
        by_cases he : ll = []
        · subst he; simp
        · rw [if_neg he, Option.getD_some]
      rw [hmem, mem_removeStr]
      by_cases hq : q = project
      · subst hq; rw [if_pos rfl]
        exact iff_of_false (fun h => h.2 rfl) hd
      · rw [if_neg hq]
        constructor
        · intro h; exact hRq.mp h.1
        · intro h; exact ⟨hRq.mpr h, hq⟩
    · rw [if_neg hs]
      by_cases hq : q = project
      · subst hq; rw [if_pos rfl]
        exact iff_of_false (fun h => hs (hRq.mp h)) hd
      · rw [if_neg hq]; exact hRq

theorem updateOwnership_noEmpty (R : Registry) (project : String)
    (desired oldPkgs : List String) (hne : NoEmptyOwners R) :
    NoEmptyOwners (updateOwnership R project desired oldPkgs) := by
  intro p
  simp only [updateOwnership]
  by_cases hd : p ∈ desired
  · rw [if_pos hd]
    by_cases hc : containsStr ((R p).getD []) project = true
    · rw [if_pos hc]
      intro h
      rw [Option.some_inj] at h
      rw [h] at hc
      simp [containsStr] at hc
    · rw [if_neg hc]
      intro h
      rw [Option.some_inj] at h
      have hlen := congrArg List.length h
      simp at hlen
  · rw [if_neg hd]
    by_cases hs : p ∈ oldPkgs
    · rw [if_pos hs]
      by_cases he : removeStr ((R p).getD []) project = []
      · rw [if_pos he]; simp
      · rw [if_neg he]
        intro h
        rw [Option.some_inj] at h
        exact he h
    · rw [if_neg hs]
      exact hne p

theorem removePhase_registry_apply (removeOk : String → Bool) (l : List String)
    (acc : PkgPhaseState) (k : String) :
    ((l.foldl (removePhaseStep removeOk) acc).registry) k =
      if k ∈ l ∧ (acc.registry k).getD [] = [] then none else acc.registry k := by
  induction l generalizing acc with
  | nil => simp
  | cons pkg rest ih =>
    simp only [List.foldl_cons]
    rw [ih]
    by_cases hk : k = pkg
    · subst hk
      by_cases he : (acc.registry k).getD [] = []
      · have hstep : (removePhaseStep removeOk acc k).registry k = none := by
          simp only [removePhaseStep, he, List.length_nil, lt_irrefl, if_neg,
            Nat.lt_irrefl]
          by_cases hok : removeOk k <;> simp [hok]
        rw [hstep]
        simp [he]
      · have hlen : ((acc.registry k).getD []).length > 0 := by
          cases hx : (acc.registry k).getD [] with
          | nil => exact absurd hx he
          | cons a as => simp
        have hstep : (removePhaseStep removeOk acc k).registry = acc.registry := by
          simp [removePhaseStep, hlen]
        rw [hstep]
        simp [he]
    · have hstep : (removePhaseStep removeOk acc pkg).registry k = acc.registry k := by
        simp only [removePhaseStep]
        by_cases hlen : ((acc.registry pkg).getD []).length > 0
        · simp [hlen]
        · by_cases hok : removeOk pkg <;> simp [hlen, hok, hk]
      rw [hstep]
      simp only [List.mem_cons]
      by_cases hr : k ∈ rest ∧ (acc.registry k).getD [] = []
      · simp [hr, hr.1, hr.2]
      · rw [if_neg hr, if_neg]
        intro ⟨hm, he⟩
        rcases hm with hm | hm
        · exact hk hm
        · exact hr ⟨hm, he⟩

/-- Claim C3: assuming the ownership invariant held before, after a
successful `Reconcile(project, desired)` the registry's owner set for
every package equals exactly the set of projects whose stored
(last-applied) inventory contains it, and keys whose owner set becomes
empty are erased. -/
theorem claim_C3 (R : Registry) (stored : StoredMap) (project : String)
    (desired : List String) (installOk saveOk : Bool) (removeOk : String → Bool)
    (hinv : RegistryInv R stored) (hne : NoEmptyOwners R)
    (out : Registry × StoredMap × PkgPhaseState)
    (hok : reconcilePackages R stored project desired installOk saveOk removeOk = some out) :
    RegistryInv out.1 out.2.1 ∧ NoEmptyOwners out.1 := by
  rw [reconcilePackages] at hok
  by_cases hfail : (diffStrings desired (stored project)).1 ≠ [] ∧ installOk = false
  · rw [if_pos hfail] at hok
    exact Option.noConfusion hok
  · rw [if_neg hfail] at hok
    by_cases hsave : saveOk = false
    · rw [if_pos hsave] at hok
      exact Option.noConfusion hok
    · rw [if_neg hsave, Option.some_inj] at hok
      subst hok
      have hupd := updateOwnership_mem R stored project desired hinv
      have hupdne := updateOwnership_noEmpty R project desired (stored project) hne
      constructor
      · intro p q
        dsimp only
        rw [removePhase, removePhase_registry_apply]
        by_cases hdel : p ∈ (diffStrings desired (stored project)).2 ∧
            (((updateOwnership R project desired (stored project))) p).getD [] = []
        · rw [if_pos hdel]
          have hempty := hdel.2
          have h1 := hupd p q
          rw [hempty] at h1
          simp only [Option.getD_none, List.not_mem_nil, false_iff] at h1 ⊢
          exact h1
        · rw [if_neg hdel]
          exact hupd p q
      · intro p
        dsimp only
        rw [removePhase, removePhase_registry_apply]
        by_cases hdel : p ∈ (diffStrings desired (stored project)).2 ∧
            (((updateOwnership R project desired (stored project))) p).getD [] = []
        · rw [if_pos hdel]
          exact fun h => Option.noConfusion h
        · rw [if_neg hdel]
          exact hupdne p

/-- Concrete output of one reconciliation used by the C3 witness. -/
def reconDemoOut : Registry × StoredMap × PkgPhaseState :=
  (reconcilePackages (fun _ => none) (fun _ => []) "alpha" ["nginx"] true true
    (fun _ => true)).getD
    (fun _ => none, fun _ => [],
      { registry := fun _ => none, skipped := [], removed := [], warned := [] })

theorem claim_C3_witness :
    RegistryInv (fun _ => none) (fun _ => []) ∧
    NoEmptyOwners (fun _ => none) ∧
    (RegistryInv reconDemoOut.1 reconDemoOut.2.1 ∧ NoEmptyOwners reconDemoOut.1) := by
  refine ⟨fun p q => by simp [RegistryInv], fun p => by simp [NoEmptyOwners], ?_⟩
  exact claim_C3 (fun _ => none) (fun _ => []) "alpha" ["nginx"] true true (fun _ => true)
    (fun p q => by simp [RegistryInv]) (fun p => by simp [NoEmptyOwners])
    reconDemoOut rfl

theorem removePhaseStep_registry_other (removeOk : String → Bool) (acc : PkgPhaseState)
    (pkg k : String) (hk : k ≠ pkg) :
    (removePhaseStep removeOk acc pkg).registry k = acc.registry k := by
  simp only [removePhaseStep]
  by_cases hlen : ((acc.registry pkg).getD []).length > 0
  · simp [hlen]
  · by_cases hok : removeOk pkg <;> simp [hlen, hok, hk]

theorem removePhaseStep_mono (removeOk : String → Bool) (acc : PkgPhaseState)
    (pkg x : String) :
    (x ∈ acc.skipped → x ∈ (removePhaseStep removeOk acc pkg).skipped) ∧
    (x ∈ acc.removed → x ∈ (removePhaseStep removeOk acc pkg).removed) ∧
    (x ∈ acc.warned → x ∈ (removePhaseStep removeOk acc pkg).warned) := by
  simp only [removePhaseStep]
  by_cases hlen : ((acc.registry pkg).getD []).length > 0
  · simp only [hlen, if_pos]
    exact ⟨fun h => List.mem_append_left _ h, fun h => h, fun h => h⟩
  · simp only [hlen, if_neg]
    by_cases hok : removeOk pkg <;>
      simp only [hok, if_pos, if_neg, Bool.false_eq_true, if_false, if_true] <;>
      exact ⟨fun h => h, fun h => List.mem_append_left _ h,
        fun h => by first | exact h | exact List.mem_append_left _ h⟩

theorem foldl_removePhase_mono (removeOk : String → Bool) (l : List String)
    (acc : PkgPhaseState) (x : String) :
    (x ∈ acc.skipped → x ∈ (l.foldl (removePhaseStep removeOk) acc).skipped) ∧
    (x ∈ acc.removed → x ∈ (l.foldl (removePhaseStep removeOk) acc).removed) ∧
    (x ∈ acc.warned → x ∈ (l.foldl (removePhaseStep removeOk) acc).warned) := by
  induction l generalizing acc with
  | nil => exact ⟨fun h => h, fun h => h, fun h => h⟩
  | cons pkg rest ih =>
    simp only [List.foldl_cons]
    have hstep := removePhaseStep_mono removeOk acc pkg x
    have hrest := ih (removePhaseStep removeOk acc pkg)
    exact ⟨fun h => hrest.1 (hstep.1 h), fun h => hrest.2.1 (hstep.2.1 h),
      fun h => hrest.2.2 (hstep.2.2 h)⟩

theorem removePhaseStep_removed_src (removeOk : String → Bool) (acc : PkgPhaseState)
    (pkg x : String) (hx : x ∈ (removePhaseStep removeOk acc pkg).removed) :
    x ∈ acc.removed ∨ x = pkg := by
  revert hx
  simp only [removePhaseStep]
  by_cases hlen : ((acc.registry pkg).getD []).length > 0
  · simp only [hlen, if_pos]
    exact Or.inl
  · simp only [hlen, if_neg]
    by_cases hok : removeOk pkg <;>
      simp only [hok, if_pos, Bool.false_eq_true, if_false, if_true] <;>
      intro hx <;> rcases List.mem_append.mp hx with h | h
    · exact Or.inl h
    · exact Or.inr (List.mem_singleton.mp h)
    · exact Or.inl h
    · exact Or.inr (List.mem_singleton.mp h)

theorem foldl_removePhase_removed_src (removeOk : String → Bool) (l : List String)
    (acc : PkgPhaseState) (x : String)
    (hx : x ∈ (l.foldl (removePhaseStep removeOk) acc).removed) :
    x ∈ acc.removed ∨ x ∈ l := by
  induction l generalizing acc with
  | nil => exact Or.inl hx
  | cons pkg rest ih =>
    rw [List.foldl_cons] at hx
    rcases ih (removePhaseStep removeOk acc pkg) hx with h | h
    · rcases removePhaseStep_removed_src removeOk acc pkg x h with h1 | h1
      · exact Or.inl h1
      · exact Or.inr (h1 ▸ List.mem_cons_self _ _)
    · exact Or.inr (List.mem_cons_of_mem _ h)

theorem removePhase_events (removeOk : String → Bool) (l : List String) (hnd : l.Nodup)
    (acc : PkgPhaseState) (p : String) (hp : p ∈ l) :
    ((acc.registry p).getD [] ≠ [] →
      p ∈ (l.foldl (removePhaseStep removeOk) acc).skipped ∧
      (p ∉ acc.removed → p ∉ (l.foldl (removePhaseStep removeOk) acc).removed)) ∧
    ((acc.registry p).getD [] = [] →
      p ∈ (l.foldl (removePhaseStep removeOk) acc).removed ∧
      (removeOk p = false → p ∈ (l.foldl (removePhaseStep removeOk) acc).warned)) := by
  induction l generalizing acc with
  | nil => cases hp
  | cons pkg rest ih =>
    rw [List.nodup_cons] at hnd
    rcases List.mem_cons.mp hp with hpe | hpr
    · subst hpe
      constructor
      · intro hnonempty
        have hlen : ((acc.registry p).getD []).length > 0 := by
          cases hx : (acc.registry p).getD [] with
          | nil => exact absurd hx hnonempty
          | cons a as => simp
        have hstep : removePhaseStep removeOk acc p =
            { acc with skipped := acc.skipped ++ [p] } := by
          simp [removePhaseStep, hlen]
        rw [List.foldl_cons, hstep]
        constructor
        · exact (foldl_removePhase_mono removeOk rest _ p).1
            (List.mem_append_right _ (List.mem_singleton_self p))
        · intro hnr hmem
          rcases foldl_removePhase_removed_src removeOk rest _ p hmem with h | h
          · exact hnr h
          · exact hnd.1 h
      · intro hempty
        have hlen : ¬ ((acc.registry p).getD []).length > 0 := by
          rw [hempty]; simp
        rw [List.foldl_cons]
        by_cases hok : removeOk p
        · have hstep : removePhaseStep removeOk acc p =
              { acc with removed := acc.removed ++ [p],
                         registry := fun k => if k = p then none else acc.registry k } := by
            simp [removePhaseStep, hlen, hok]
          rw [hstep]
          refine ⟨(foldl_removePhase_mono removeOk rest _ p).2.1
            (List.mem_append_right _ (List.mem_singleton_self p)), ?_⟩
          intro hfalse
          rw [hok] at hfalse
          cases hfalse
        · have hstep : removePhaseStep removeOk acc p =
              { acc with removed := acc.removed ++ [p], warned := acc.warned ++ [p],
                         registry := fun k => if k = p then none else acc.registry k } := by
            simp only [removePhaseStep, hlen, if_neg, hok, Bool.false_eq_true, if_false]
          rw [hstep]
          exact ⟨(foldl_removePhase_mono removeOk rest _ p).2.1
              (List.mem_append_right _ (List.mem_singleton_self p)),
            fun _ => (foldl_removePhase_mono removeOk rest _ p).2.2
              (List.mem_append_right _ (List.mem_singleton_self p))⟩
    · have hppkg : p ≠ pkg := fun h => hnd.1 (h ▸ hpr)
      have hreg : (removePhaseStep removeOk acc pkg).registry p = acc.registry p :=
        removePhaseStep_registry_other removeOk acc pkg p hppkg
      have ihs := ih hnd.2 (removePhaseStep removeOk acc pkg) hpr
      rw [hreg] at ihs
      rw [List.foldl_cons]
      refine ⟨fun hne => ⟨(ihs.1 hne).1, fun hnr => (ihs.1 hne).2 ?_⟩, ihs.2⟩
      intro hmem
      rcases removePhaseStep_removed_src removeOk acc pkg p hmem with h | h
      · exact hnr h
      · exact hppkg h

/-- Claim C4: for every package in the remove set `S \ D`, if after the
ownership update the registry still records owners the package is
skipped (logged, not uninstalled); otherwise the remove command is
invoked, a non-zero exit (`removeOk p = false`) is logged as a warning,
and the deployment proceeds rather than failing (the reconciliation
result does not become an error whatever the remove exits are). -/
theorem claim_C4 (R : Registry) (stored : StoredMap) (project : String)
    (desired : List String) (removeOk : String → Bool) :
    (∀ p ∈ (diffStrings desired (stored project)).2,
      ((((updateOwnership R project desired (stored project)) p).getD [] ≠ [] →
        p ∈ (removePhase (updateOwnership R project desired (stored project))
              (diffStrings desired (stored project)).2 removeOk).skipped ∧
        p ∉ (removePhase (updateOwnership R project desired (stored project))
              (diffStrings desired (stored project)).2 removeOk).removed) ∧
       (((updateOwnership R project desired (stored project)) p).getD [] = [] →
        p ∈ (removePhase (updateOwnership R project desired (stored project))
              (diffStrings desired (stored project)).2 removeOk).removed ∧
        (removeOk p = false →
          p ∈ (removePhase (updateOwnership R project desired (stored project))
                (diffStrings desired (stored project)).2 removeOk).warned)))) ∧
    (reconcilePackages R stored project desired true true removeOk).isSome = true := by
  constructor
  · intro p hp
    have hnd : (diffStrings desired (stored project)).2.Nodup :=
      (List.nodup_dedup _).filter _
    have h := removePhase_events removeOk _ hnd
      { registry := updateOwnership R project desired (stored project), skipped := [],
        removed := [], warned := [] } p hp
    rw [removePhase]
    exact ⟨fun hne => ⟨(h.1 hne).1, (h.1 hne).2 (by simp)⟩, h.2⟩
  · rw [reconcilePackages]
    simp

/-- Registry used by the C4 witness: `nginx` owned by `alpha` only,
`curl` owned by `alpha` and `beta`. -/
def c4R : Registry := fun pkg =>
  if pkg = "nginx" then some ["alpha"]
  else if pkg = "curl" then some ["alpha", "beta"] else none

/-- Stored inventories used by the C4 witness. -/
def c4Stored : StoredMap := fun q => if q = "alpha" then ["nginx", "curl"] else []

theorem claim_C4_witness :
    "curl" ∈ (diffStrings ["nginx"] (c4Stored "alpha")).2 ∧
    ((updateOwnership c4R "alpha" ["nginx"] (c4Stored "alpha")) "curl").getD [] ≠ [] ∧
    "curl" ∈ (removePhase (updateOwnership c4R "alpha" ["nginx"] (c4Stored "alpha"))
      (diffStrings ["nginx"] (c4Stored "alpha")).2 (fun _ => false)).skipped :=
  ⟨by decide, by decide,
    (((claim_C4 c4R c4Stored "alpha" ["nginx"] (fun _ => false)).1 "curl"
      (by decide)).1 (by decide)).1⟩

/-! ### Rollback snapshot store (`internal/deploy/backup.go`) -/

/-- Byte strings: paths and file contents at the byte level. -/
abbrev GoStr := List Char

/-- A host filesystem: absolute path to file bytes (`none` = no file). -/
abbrev FsState := GoStr → Option GoStr

/-- `strings.TrimPrefix(dest, "/")`: drop one leading slash if present. -/
def trimLeadingSlash : GoStr → GoStr
  | '/' :: rest => rest
  | p => p

/-- The per-project snapshot directory: the `files/` subtree as
(relative path, backed-up bytes) pairs, and the `new-files.json` list.
A duplicated destination overwrites its own backup file with identical
bytes, so the pair list is a faithful model of the on-disk subtree. -/
structure Snapshot where
  files : List (GoStr × GoStr)
  newFiles : List GoStr

/-- `BackupFiles` (success path): remove any previous snapshot, copy
every existing destination to `files/<dest-without-leading-slash>`, and
record every destination that does not exist in `new-files.json`. -/
def BackupFiles (fs : FsState) (destPaths : List GoStr) : Snapshot :=
  { files := destPaths.filterMap
      (fun dest => (fs dest).map (fun c => (trimLeadingSlash dest, c)))
    newFiles := destPaths.filter (fun dest => (fs dest).isNone) }

/-- One restore step of the `filepath.Walk` loop: the snapshot file at
relative path `pr.1` is copied back to `"/" ++ pr.1`. -/
def restoreWrite (fs : FsState) (pr : GoStr × GoStr) : FsState :=
  fun p => if p = '/' :: pr.1 then some pr.2 else fs p

/-- One `os.Remove` of a recorded new file. -/
def removePath (fs : FsState) (f : GoStr) : FsState :=
  fun p => if p = f then none else fs p

/-- `RestoreBackup`: a missing snapshot is a reported error; otherwise
restore every backed-up file, remove every recorded new file, and
delete the snapshot directory (the returned snapshot slot is `none`). -/
def RestoreBackup (snap : Option Snapshot) (fs : FsState) :
    Except String (FsState × Option Snapshot) :=
  match snap with
  | none => Except.error "no rollback snapshot available"
  | some s =>
    let fs1 := s.files.foldl restoreWrite fs
    let fs2 := s.newFiles.foldl removePath fs1
    Except.ok (fs2, none)

theorem foldl_removePath_apply (l : List GoStr) (fs : FsState) (p : GoStr) :
    (l.foldl removePath fs) p = if p ∈ l then none else fs p := by
  induction l generalizing fs with
  | nil => simp
  | cons f rest ih =>
    rw [List.foldl_cons, ih]
    by_cases hp : p = f
    · subst hp
      by_cases hr : p ∈ rest <;> simp [hr, removePath]
    · simp only [removePath, hp, if_neg, List.mem_cons]
      by_cases hr : p ∈ rest
      · simp [hr]
      · simp [hr, hp]

/-- The content restored last for absolute path `p`, walking the pair
list left to right. -/
def lastRestore : List (GoStr × GoStr) → GoStr → Option GoStr
  | [], _ => none
  | pr :: rest, p =>
    match lastRestore rest p with
    | some c => some c
    | none => if p = '/' :: pr.1 then some pr.2 else none

theorem foldl_restoreWrite_apply (prs : List (GoStr × GoStr)) (fs : FsState) (p : GoStr) :
    (prs.foldl restoreWrite fs) p =
      match lastRestore prs p with
      | some c => some c
      | none => fs p := by
  induction prs generalizing fs with
  | nil => simp [lastRestore]
  | cons pr rest ih =>
    rw [List.foldl_cons, ih]
    simp only [lastRestore]
    cases hr : lastRestore rest p with
    | some c => simp
    | none =>
      simp only [restoreWrite]
      by_cases hp : p = '/' :: pr.1 <;> simp [hp]

theorem lastRestore_mem (prs : List (GoStr × GoStr)) (p : GoStr) (c : GoStr)
    (h : lastRestore prs p = some c) : ∃ pr ∈ prs, '/' :: pr.1 = p ∧ pr.2 = c := by
  induction prs with
  | nil => simp [lastRestore] at h
  | cons pr rest ih =>
    simp only [lastRestore] at h
    cases hr : lastRestore rest p with
    | some w =>
      simp only [hr] at h
      obtain ⟨g, hg, hgp, hgc⟩ := ih (hr.trans h)
      exact ⟨g, List.mem_cons_of_mem _ hg, hgp, hgc⟩
    | none =>
      simp only [hr] at h
      by_cases hp : p = '/' :: pr.1
      · simp only [hp, if_pos, Option.some_inj] at h
        exact ⟨pr, List.mem_cons_self _ _, hp.symm, h⟩
      · simp [hp] at h

theorem lastRestore_none_notmem (prs : List (GoStr × GoStr)) (p : GoStr)
    (h : lastRestore prs p = none) : ∀ pr ∈ prs, '/' :: pr.1 ≠ p := by
  induction prs with
  | nil => intro pr hpr; cases hpr
  | cons pr rest ih =>
    simp only [lastRestore] at h
    cases hr : lastRestore rest p with
    | some w => rw [hr] at h; cases h
    | none =>
      rw [hr] at h
      intro g hg
      rcases List.mem_cons.mp hg with hge | hgr
      · subst hge
        intro hgp
        rw [if_pos hgp.symm] at h
        cases h
      · exact ih hr g hgr

theorem lastRestore_eq_of (prs : List (GoStr × GoStr)) (p : GoStr) (c : GoStr)
    (hex : ∃ pr ∈ prs, '/' :: pr.1 = p)
    (hall : ∀ pr ∈ prs, '/' :: pr.1 = p → pr.2 = c) :
    lastRestore prs p = some c := by
  induction prs with
  | nil => obtain ⟨pr, hpr, _⟩ := hex; cases hpr
  | cons pr rest ih =>
    simp only [lastRestore]
    cases hr : lastRestore rest p with
    | some w =>
      obtain ⟨g, hg, hgp, hgc⟩ := lastRestore_mem rest p w hr
      rw [hall g (List.mem_cons_of_mem _ hg) hgp] at hgc
      rw [← hgc]
    | none =>
      have hnone := lastRestore_none_notmem rest p hr
      obtain ⟨g, hg, hgp⟩ := hex
      rcases List.mem_cons.mp hg with hge | hgr
      · subst hge
        rw [if_pos hgp.symm, hall g (List.mem_cons_self _ _) hgp]
      · exact absurd hgp (hnone g hgr)

theorem goStr_abs_round (d : GoStr) (h : ∃ r, d = '/' :: r) :
    '/' :: trimLeadingSlash d = d := by
  obtain ⟨r, rfl⟩ := h
  rfl

/-- Claim C5: for a deployment whose snapshot backed up the pre-existing
destinations and recorded the non-existing ones, `RestoreBackup` (run
against whatever filesystem the deployment left behind) restores every
pre-existing destination to its pre-deployment byte content, removes
every recorded new path, and deletes the snapshot; calling it with no
snapshot returns a reported error.  Destinations are absolute, per the
manifest invariant. -/
theorem claim_C5 (fs0 fsMid : FsState) (destPaths : List GoStr)
    (habs : ∀ d ∈ destPaths, ∃ r, d = '/' :: r) :
    (∃ fs2, RestoreBackup (some (BackupFiles fs0 destPaths)) fsMid =
        Except.ok (fs2, none) ∧ ∀ d ∈ destPaths, fs2 d = fs0 d) ∧
    (∃ msg, RestoreBackup none fsMid = Except.error msg) := by
  refine ⟨⟨_, rfl, ?_⟩, ⟨_, rfl⟩⟩
  intro d hd
  rw [foldl_removePath_apply]
  cases hc : fs0 d with
  | none =>
    rw [if_pos]
    simp [BackupFiles, List.mem_filter, hd, hc]
  | some c =>
    rw [if_neg, foldl_restoreWrite_apply]
    · have hlr : lastRestore (BackupFiles fs0 destPaths).files d = some c := by
        apply lastRestore_eq_of
        · refine ⟨(trimLeadingSlash d, c), ?_, goStr_abs_round d (habs d hd)⟩
          simp only [BackupFiles, List.mem_filterMap]
          exact ⟨d, hd, by rw [hc]; rfl⟩
        · intro pr hpr hpd
          simp only [BackupFiles, List.mem_filterMap] at hpr
          obtain ⟨dest, hdest, hmap⟩ := hpr
          cases hfd : fs0 dest with
          | none => rw [hfd] at hmap; cases hmap
          | some v =>
            rw [hfd] at hmap
            simp only [Option.map_some', Option.some_inj] at hmap
            rw [← hmap] at hpd
            simp only at hpd
            rw [goStr_abs_round dest (habs dest hdest)] at hpd
            subst hpd
            rw [hc] at hfd
            rw [← hmap]
            simp only
            exact (Option.some_inj.mp hfd).symm
      rw [hlr]
    · simp [BackupFiles, List.mem_filter, hc]

/-- Pre-deployment filesystem used by the C5 witness. -/
def c5Fs0 : FsState := fun p => if p = ['/', 'a'] then some ['o'] else none

/-- Post-deployment filesystem used by the C5 witness. -/
def c5FsMid : FsState := fun _ => some ['n']

theorem claim_C5_witness :
    (∀ d ∈ [['/', 'a'], ['/', 'b']], ∃ r, d = '/' :: r) ∧
    (∃ fs2, RestoreBackup (some (BackupFiles c5Fs0 [['/', 'a'], ['/', 'b']])) c5FsMid =
        Except.ok (fs2, none) ∧ ∀ d ∈ [['/', 'a'], ['/', 'b']], fs2 d = c5Fs0 d) := by
  have habsp : ∀ d ∈ [['/', 'a'], ['/', 'b']], ∃ r, d = ('/' : Char) :: r := by
    intro d hd
    simp only [List.mem_cons, List.not_mem_nil, or_false] at hd
    rcases hd with rfl | rfl
    · exact ⟨['a'], rfl⟩
    · exact ⟨['b'], rfl⟩
  exact ⟨habsp, (claim_C5 c5Fs0 c5FsMid [['/', 'a'], ['/', 'b']] habsp).1⟩

/-! ### Archive extraction (`Extract` in `internal/archive/archive.go`) -/

/-- Split a byte string on `'/'` (the segment view `filepath.Clean`
processes). -/
def splitSlash : GoStr → List GoStr
  | [] => [[]]
  | '/' :: rest => [] :: splitSlash rest
  | c :: rest =>
    match splitSlash rest with
    | [] => [[c]]
    | seg :: segs => (c :: seg) :: segs

/-- Join segments with `'/'`. -/
def joinSlash : List GoStr → GoStr
  | [] => []
  | [seg] => seg
  | seg :: segs => seg ++ '/' :: joinSlash segs

/-- One step of Go `filepath.Clean`'s segment processing: empty and `.`
segments are dropped; `..` pops the previous segment, is dropped at the
root, and is kept when nothing can be popped in a relative path; every
other segment is pushed.  `stack` holds the processed segments in
reverse order. -/
def cleanStep (rooted : Bool) (stack : List GoStr) (seg : GoStr) : List GoStr :=
  if seg = [] ∨ seg = ['.'] then stack
  else if seg = ['.', '.'] then
    match stack with
    | [] => if rooted then [] else [['.', '.']]
    | top :: rest => if top = ['.', '.'] then seg :: stack else rest
  else seg :: stack

/-- Go `filepath.Clean` for unix paths, in its standard segment-stack
formulation. -/
def goClean (path : GoStr) : GoStr :=
  if path = [] then ['.']
  else
    let rooted := path.head? = some '/'
    let stack := (splitSlash path).foldl (cleanStep rooted) []
    let out := joinSlash stack.reverse
    if rooted then '/' :: out
    else if out = [] then ['.'] else out

/-- Go `filepath.Join` of two elements: empty elements are dropped, the
rest are joined with `'/'` and cleaned; all-empty input yields `""`. -/
def goJoin (a b : GoStr) : GoStr :=
  if a = [] then (if b = [] then [] else goClean b)
  else if b = [] then goClean a
  else goClean (a ++ '/' :: b)

/-- Tar header type flags as `Extract` distinguishes them. -/
inductive TarType
  | dir
  | reg
  | other
deriving DecidableEq, Repr

/-- One tar entry. -/
structure TarEntry where
  name : GoStr
  typeflag : TarType
  mode : Nat
  content : GoStr

/-- A filesystem write performed by `Extract`: `mkdirAll target mode`
for a directory entry; for a regular entry `mkparents target`
(`os.MkdirAll(filepath.Dir(target), 0755)`, which creates only the
missing ancestor directories of `target`; the extraction root was just
created by `os.MkdirTemp` and already exists) followed by
`createFile`. -/
inductive WriteOp
  | mkdirAll (path : GoStr) (mode : Nat)
  | mkparents (path : GoStr)
  | createFile (path : GoStr) (mode : Nat) (content : GoStr)
deriving DecidableEq, Repr

/-- The target path a write is directed at. -/
def WriteOp.path : WriteOp → GoStr
  | WriteOp.mkdirAll p _ => p
  | WriteOp.mkparents p => p
  | WriteOp.createFile p _ _ => p

/-- The safety condition of `Extract`'s guard: the resolved target
equals the cleaned root or extends it past a path separator. -/
def underRoot (destDir target : GoStr) : Prop :=
  (goClean destDir ++ ['/']).isPrefixOf target = true ∨ target = goClean destDir

instance (destDir target : GoStr) : Decidable (underRoot destDir target) := by
  unfold underRoot; infer_instance

/-- The body of `Extract`'s loop for one header: skip entries outside
the allowed name prefix; resolve
`target := filepath.Join(destDir, filepath.Clean("/" + hdr.Name))`;
skip the entry when the guard fails; create a directory for `TypeDir`,
parents plus the file for `TypeReg`, and nothing for any other type. -/
def extractEntry (destDir allowedPfx : GoStr) (e : TarEntry) : List WriteOp :=
  if ¬ (allowedPfx.isPrefixOf e.name) then []
  else
    let target := goJoin destDir (goClean ('/' :: e.name))
    if ¬ underRoot destDir target then []
    else
      match e.typeflag with
      | TarType.dir => [WriteOp.mkdirAll target e.mode]
      | TarType.reg => [WriteOp.mkparents target, WriteOp.createFile target e.mode e.content]
      | TarType.other => []

/-- The entry loop of `Extract`: each entry contributes its writes and
the loop always continues to the next entry. -/
def extractWrites (destDir allowedPfx : GoStr) (entries : List TarEntry) : List WriteOp :=
  entries.flatMap (extractEntry destDir allowedPfx)

theorem extractEntry_path (destDir allowedPfx : GoStr) (e : TarEntry) (op : WriteOp)
    (hop : op ∈ extractEntry destDir allowedPfx e) :
    underRoot destDir op.path := by
  revert hop
  simp only [extractEntry]
  by_cases hpfx : allowedPfx.isPrefixOf e.name
  · simp only [hpfx, not_true, if_neg, if_false, Bool.not_true]
    by_cases hguard : underRoot destDir (goJoin destDir (goClean ('/' :: e.name)))
    · simp only [hguard, not_true, if_false]
      cases e.typeflag <;> intro hop
      · rw [List.mem_singleton] at hop
        subst hop
        exact hguard
      · rcases List.mem_cons.mp hop with rfl | hop
        · exact hguard
        · rw [List.mem_singleton] at hop
          subst hop
          exact hguard
      · cases hop
    · simp [hguard]
  · simp [hpfx]

theorem extractEntry_eq_nil (destDir allowedPfx : GoStr) (e : TarEntry)
    (h : ¬ underRoot destDir (goJoin destDir (goClean ('/' :: e.name))) ∨
      e.typeflag = TarType.other) :
    extractEntry destDir allowedPfx e = [] := by
  simp only [extractEntry]
  by_cases hpfx : allowedPfx.isPrefixOf e.name
  · simp only [hpfx, not_true, if_false, Bool.not_true]
    rcases h with h | h
    · simp [h]
    · by_cases hguard : underRoot destDir (goJoin destDir (goClean ('/' :: e.name)))
      · simp [hguard, h]
      · simp [hguard]
  · simp [hpfx]

/-- Claim C6: every path written during extraction lies under the
caller-supplied destination root (it is the cleaned root or extends it
past a separator); an entry whose cleaned, joined name resolves outside
the root is silently skipped, and entry types other than directories
and regular files are skipped — in either case extraction of the
remaining entries proceeds unchanged. -/
theorem claim_C6 (destDir allowedPfx : GoStr) (entries : List TarEntry) :
    (∀ op ∈ extractWrites destDir allowedPfx entries, underRoot destDir op.path) ∧
    (∀ es1 e es2, entries = es1 ++ e :: es2 →
      (¬ underRoot destDir (goJoin destDir (goClean ('/' :: e.name))) ∨
        e.typeflag = TarType.other) →
      extractWrites destDir allowedPfx entries =
        extractWrites destDir allowedPfx (es1 ++ es2)) := by
  constructor
  · intro op hop
    rw [extractWrites, List.mem_flatMap] at hop
    obtain ⟨e, _, hope⟩ := hop
    exact extractEntry_path destDir allowedPfx e op hope
  · intro es1 e es2 hsplit hskip
    subst hsplit
    simp only [extractWrites, List.flatMap_append, List.flatMap_cons]
    rw [extractEntry_eq_nil destDir allowedPfx e hskip]
    simp

theorem claim_C6_witness :
    (∀ op ∈ extractWrites ['/', 't'] [] [⟨['a'], TarType.reg, 420, []⟩],
      underRoot ['/', 't'] op.path) ∧
    extractWrites ['/', 't'] [] ([] ++ ⟨['b'], TarType.other, 0, []⟩ :: [⟨['a'], TarType.reg, 420, []⟩]) =
      extractWrites ['/', 't'] [] ([] ++ [⟨['a'], TarType.reg, 420, []⟩]) :=
  ⟨(claim_C6 ['/', 't'] [] [⟨['a'], TarType.reg, 420, []⟩]).1,
   (claim_C6 ['/', 't'] [] ([] ++ ⟨['b'], TarType.other, 0, []⟩ :: [⟨['a'], TarType.reg, 420, []⟩])).2
     [] ⟨['b'], TarType.other, 0, []⟩ [⟨['a'], TarType.reg, 420, []⟩] rfl (Or.inr rfl)⟩

/-! ### Sliding-window rate limiter and routing
(`rateLimiter`, `main` in `cmd/simplecdd/main.go`) -/

/-- A `rateLimiter`: per-key timestamp lists (`[]` for an unseen key,
the Go map zero value), the request limit, and the window length.
Timestamps are integer clock readings; Go's monotonic clock makes the
readings taken by successive `allow` calls nondecreasing. -/
structure RateLimiter where
  requests : String → List Int
  limit : Nat
  window : Int

def newRateLimiter (limit : Nat) (window : Int) : RateLimiter :=
  { requests := fun _ => [], limit := limit, window := window }

/-- `rl.allow(ip)` at clock reading `now`: keep only entries strictly
after `now - window` (`t.After(cutoff)`), reject when at least `limit`
remain, otherwise record `now` and admit. -/
def rlAllow (rl : RateLimiter) (ip : String) (now : Int) : Bool × RateLimiter :=
  let cutoff := now - rl.window
  let valid := (rl.requests ip).filter (fun t => cutoff < t)
  if rl.limit ≤ valid.length then
    (false, { rl with requests := fun k => if k = ip then valid else rl.requests k })
  else
    (true, { rl with requests := fun k => if k = ip then valid ++ [now] else rl.requests k })

/-- Run one limiter over a sequence of `(key, clock)` requests,
returning the final state and each request's admission verdict. -/
def rlRun (rl : RateLimiter) : List (String × Int) → RateLimiter × List ((String × Int) × Bool)
  | [] => (rl, [])
  | e :: es =>
    let res := rlAllow rl e.1 e.2
    let rest := rlRun res.2 es
    (rest.1, (e, res.1) :: rest.2)

/-- The times of admitted requests for one key, in order. -/
def admittedTimes (results : List ((String × Int) × Bool)) (ip : String) : List Int :=
  results.filterMap (fun r => if r.1.1 = ip ∧ r.2 = true then some r.1.2 else none)

theorem admittedTimes_cons (e : String × Int) (ok : Bool)
    (rest : List ((String × Int) × Bool)) (ip : String) :
    admittedTimes ((e, ok) :: rest) ip =
      if e.1 = ip ∧ ok = true then e.2 :: admittedTimes rest ip
      else admittedTimes rest ip := by
  simp only [admittedTimes, List.filterMap_cons]
  by_cases h : e.1 = ip ∧ ok = true
  · rw [if_pos h, if_pos h]
  · rw [if_neg h, if_neg h]

theorem filter_filter_of_imp (l : List Int) (c d : Int) (h : c ≤ d) :
    (l.filter (fun t => c < t)).filter (fun t => d < t) = l.filter (fun t => d < t) := by
  rw [List.filter_filter]
  apply List.filter_congr
  intro a _
  by_cases hd : d < a
  · simp [hd, lt_of_le_of_lt h hd]
  · simp [hd]

theorem rlAllow_other (rl : RateLimiter) (k : String) (now : Int) (ip : String)
    (h : ip ≠ k) : ((rlAllow rl k now).2).requests ip = rl.requests ip := by
  simp only [rlAllow]
  by_cases hc : rl.limit ≤ ((rl.requests k).filter (fun t => now - rl.window < t)).length <;>
    simp [hc, h]

theorem rlAllow_limit (rl : RateLimiter) (k : String) (now : Int) :
    ((rlAllow rl k now).2).limit = rl.limit := by
  simp only [rlAllow]
  by_cases hc : rl.limit ≤ ((rl.requests k).filter (fun t => now - rl.window < t)).length <;>
    simp [hc]

theorem rlAllow_window (rl : RateLimiter) (k : String) (now : Int) :
    ((rlAllow rl k now).2).window = rl.window := by
  simp only [rlAllow]
  by_cases hc : rl.limit ≤ ((rl.requests k).filter (fun t => now - rl.window < t)).length <;>
    simp [hc]

theorem rlAllow_cases (rl : RateLimiter) (ip : String) (now : Int) :
    (rl.limit ≤ ((rl.requests ip).filter (fun t => now - rl.window < t)).length ∧
      (rlAllow rl ip now).1 = false ∧
      ((rlAllow rl ip now).2).requests ip =
        (rl.requests ip).filter (fun t => now - rl.window < t)) ∨
    (((rl.requests ip).filter (fun t => now - rl.window < t)).length < rl.limit ∧
      (rlAllow rl ip now).1 = true ∧
      ((rlAllow rl ip now).2).requests ip =
        (rl.requests ip).filter (fun t => now - rl.window < t) ++ [now]) := by
  simp only [rlAllow]
  by_cases hc : rl.limit ≤ ((rl.requests ip).filter (fun t => now - rl.window < t)).length
  · exact Or.inl ⟨hc, by simp [hc], by simp [hc]⟩
  · exact Or.inr ⟨lt_of_not_le hc, by simp [hc], by simp [hc]⟩

theorem rlRun_at_admit (window : Int) (hw : 0 < window) (limit : Nat)
    (es : List (String × Int)) (ip : String)
    (hmono : (es.filterMap (fun e => if e.1 = ip then some e.2 else none)).Pairwise (· ≤ ·))
    (rl : RateLimiter) (hl : rl.limit = limit) (hwin : rl.window = window)
    (pre : List Int) (c : Int)
    (hreq : rl.requests ip = pre.filter (fun t => c < t))
    (hc : pre = [] ∨ ∀ e ∈ es, e.1 = ip → c + window ≤ e.2) :
    ∀ A t B, admittedTimes (rlRun rl es).2 ip = A ++ t :: B →
      (((pre ++ A) ++ [t]).filter (fun u => t - window < u)).length ≤ limit := by
  induction es generalizing rl pre c with
  | nil =>
    intro A t B hsplit
    simp [rlRun, admittedTimes] at hsplit
  | cons e es ih =>
    have hrun : (rlRun rl (e :: es)).2 =
        (e, (rlAllow rl e.1 e.2).1) :: (rlRun (rlAllow rl e.1 e.2).2 es).2 := rfl
    by_cases hip : e.1 = ip
    case neg =>
      intro A t B hsplit
      rw [hrun, admittedTimes_cons, if_neg (by simp [hip])] at hsplit
      have hfm : (e :: es).filterMap (fun x => if x.1 = ip then some x.2 else none) =
          es.filterMap (fun x => if x.1 = ip then some x.2 else none) := by
        simp [List.filterMap_cons, hip]
      rw [hfm] at hmono
      refine ih hmono (rlAllow rl e.1 e.2).2
        (by rw [rlAllow_limit, hl]) (by rw [rlAllow_window, hwin]) pre c ?_ ?_ A t B hsplit
      · rw [rlAllow_other rl e.1 e.2 ip (fun h => hip h.symm), hreq]
      · rcases hc with hempty | hfut
        · exact Or.inl hempty
        · exact Or.inr (fun x hx hxip => hfut x (List.mem_cons_of_mem _ hx) hxip)
    · -- this limiter key is touched
      have hvalid : (rl.requests ip).filter (fun t => e.2 - rl.window < t) =
          pre.filter (fun u => e.2 - window < u) := by
        rw [hreq, hwin]
        rcases hc with hempty | hfut
        · subst hempty; simp
        · exact filter_filter_of_imp pre c (e.2 - window)
            (by have := hfut e (List.mem_cons_self _ _) hip; omega)
      have hfm : (e :: es).filterMap (fun x => if x.1 = ip then some x.2 else none) =
          e.2 :: es.filterMap (fun x => if x.1 = ip then some x.2 else none) := by
        simp [List.filterMap_cons, hip]
      rw [hfm] at hmono
      have hmtail := (List.pairwise_cons.mp hmono).2
      have hhead := (List.pairwise_cons.mp hmono).1
      have hfut2 : ∀ x ∈ es, x.1 = ip → e.2 ≤ x.2 := by
        intro x hx hxip
        exact hhead x.2 (List.mem_filterMap.mpr ⟨x, hx, by simp [hxip]⟩)
      rcases rlAllow_cases rl e.1 e.2 with ⟨hge, hok, hreq2⟩ | ⟨hlt, hok, hreq2⟩
      · -- rejected: admitted list unchanged
        intro A t B hsplit
        rw [hrun, admittedTimes_cons, if_neg (by simp [hok])] at hsplit
        refine ih hmtail (rlAllow rl e.1 e.2).2
          (by rw [rlAllow_limit, hl]) (by rw [rlAllow_window, hwin])
          pre (e.2 - window) ?_ ?_ A t B hsplit
        · rw [← hip, hreq2, hip]
          exact hvalid
        · rcases hc with hempty | _
          · exact Or.inl hempty
          · exact Or.inr (fun x hx hxip => by have := hfut2 x hx hxip; omega)
      · -- admitted: e.2 is prepended to the admitted list
        intro A t B hsplit
        rw [hrun, admittedTimes_cons, if_pos ⟨hip, hok⟩] at hsplit
        have hreq3 : ((rlAllow rl e.1 e.2).2).requests ip =
            (pre ++ [e.2]).filter (fun u => e.2 - window < u) := by
          rw [← hip, hreq2, hip, hvalid, List.filter_append]
          congr 1
          simp only [List.filter_cons, List.filter_nil]
          rw [if_pos (by simp; omega)]
        cases A with
        | nil =>
          simp only [List.nil_append, List.cons.injEq] at hsplit
          obtain ⟨ht, _⟩ := hsplit
          subst ht
          rw [List.append_nil, List.filter_append]
          have h1 : (pre.filter (fun u => e.2 - window < u)).length < limit := by
            rw [← hvalid, ← hl]
            rw [hip] at hlt
            exact hlt
          have h2 : ([e.2].filter (fun u => e.2 - window < u)) = [e.2] := by
            simp only [List.filter_cons, List.filter_nil]
            rw [if_pos (by simp only [decide_eq_true_eq]; omega)]
          rw [h2]
          simp only [List.length_append, List.length_singleton]
          omega
        | cons a A2 =>
          simp only [List.cons_append, List.cons.injEq] at hsplit
          obtain ⟨rfl, hsplit2⟩ := hsplit
          have hres := ih hmtail (rlAllow rl e.1 e.2).2
            (by rw [rlAllow_limit, hl]) (by rw [rlAllow_window, hwin])
            (pre ++ [e.2]) (e.2 - window) hreq3
            (Or.inr (fun x hx hxip => by have := hfut2 x hx hxip; omega))
            A2 t B hsplit2
          have hco : (pre ++ e.2 :: A2) = (pre ++ [e.2]) ++ A2 := by simp
          rw [hco]
          exact hres

theorem rolling_window_bound (window : Int) (limit : Nat) (L : List Int)
    (H : ∀ A t B, L = A ++ t :: B →
      ((A ++ [t]).filter (fun u => t - window < u)).length ≤ limit)
    (a : Int) :
    (L.filter (fun u => a < u ∧ u ≤ a + window)).length ≤ limit := by
  induction L using List.reverseRecOn with
  | nil => simp
  | append_singleton L2 t ih =>
    have H2 : ∀ A u B, L2 = A ++ u :: B →
        ((A ++ [u]).filter (fun v => u - window < v)).length ≤ limit := by
      intro A u B hsplit
      exact H A u (B ++ [t]) (by rw [hsplit]; simp)
    by_cases ht : a < t ∧ t ≤ a + window
    · have hmono : ∀ u ∈ L2 ++ [t], (decide (a < u ∧ u ≤ a + window) = true) →
          (decide (t - window < u) = true) := by
        intro u _ hu
        simp only [decide_eq_true_eq] at hu ⊢
        omega
      calc ((L2 ++ [t]).filter (fun u => a < u ∧ u ≤ a + window)).length
          = List.countP (fun u => decide (a < u ∧ u ≤ a + window)) (L2 ++ [t]) := by
            rw [List.countP_eq_length_filter]
        _ ≤ List.countP (fun u => decide (t - window < u)) (L2 ++ [t]) :=
            List.countP_mono_left hmono
        _ = ((L2 ++ [t]).filter (fun u => t - window < u)).length := by
            rw [List.countP_eq_length_filter]
        _ ≤ limit := H L2 t [] rfl
    · rw [List.filter_append]
      have hnil : ([t].filter (fun u => a < u ∧ u ≤ a + window)) = [] := by
        simp only [List.filter_cons, List.filter_nil]
        rw [if_neg (by simp only [decide_eq_true_eq]; exact ht)]
      rw [hnil, List.append_nil]
      exact ih H2

/-- The four daemon routes. -/
inductive Route
  | check
  | deploy
  | rollback
  | health
deriving DecidableEq, Repr

/-- The daemon's mutable rate-limit state, as wired in `main`:
`checkRL := newRateLimiter(60, time.Minute)` guards `/check`, and
`deployRL := newRateLimiter(10, time.Minute)` guards both `/deploy`
and `/rollback`. -/
structure ServerState where
  checkRL : RateLimiter
  deployRL : RateLimiter

/-- Time is measured in seconds: one minute is 60. -/
def initServerState : ServerState :=
  { checkRL := newRateLimiter 60 60, deployRL := newRateLimiter 10 60 }

/-- What the middleware chain decides for one request. -/
inductive ReqOutcome
  | rateLimited
  | unauthorized
  | handled
deriving DecidableEq, Repr

/-- One incoming request: route, the host portion of the remote
address, the clock reading, and whether the bearer token matches. -/
structure ReqEvent where
  route : Route
  ip : String
  time : Int
  authOk : Bool

/-- `rl.middleware(auth.Middleware(token, handler))`: a request that
exceeds the limit is answered 429 without invoking anything further;
otherwise the auth middleware runs and only a valid token reaches the
handler. -/
def limitedStep (rl : RateLimiter) (ip : String) (now : Int) (authOk : Bool) :
    RateLimiter × ReqOutcome :=
  let res := rlAllow rl ip now
  (res.2,
    if res.1 = false then ReqOutcome.rateLimited
    else if authOk = false then ReqOutcome.unauthorized
    else ReqOutcome.handled)

/-- Dispatch of one request by the mux built in `main`. -/
def serveStep (st : ServerState) (e : ReqEvent) : ServerState × ReqOutcome :=
  match e.route with
  | Route.health => (st, ReqOutcome.handled)
  | Route.check =>
    let r := limitedStep st.checkRL e.ip e.time e.authOk
    ({ st with checkRL := r.1 }, r.2)
  | Route.deploy =>
    let r := limitedStep st.deployRL e.ip e.time e.authOk
    ({ st with deployRL := r.1 }, r.2)
  | Route.rollback =>
    let r := limitedStep st.deployRL e.ip e.time e.authOk
    ({ st with deployRL := r.1 }, r.2)

/-- Serve a request sequence, recording each request's outcome. -/
def serveRun (st : ServerState) : List ReqEvent → ServerState × List (ReqEvent × ReqOutcome)
  | [] => (st, [])
  | e :: es =>
    let r := serveStep st e
    let rest := serveRun r.1 es
    (rest.1, (e, r.2) :: rest.2)

/-- The times at which a handler of a selected route was actually
invoked for requests from `ip`. -/
def handledTimes (results : List (ReqEvent × ReqOutcome)) (sel : Route → Bool)
    (ip : String) : List Int :=
  results.filterMap (fun r =>
    if sel r.1.route = true ∧ r.1.ip = ip ∧ r.2 = ReqOutcome.handled
    then some r.1.time else none)

def routeIsCheck : Route → Bool
  | Route.check => true
  | _ => false

def routeIsDeployOrRollback : Route → Bool
  | Route.deploy => true
  | Route.rollback => true
  | _ => false

/-- The `(ip, time)` requests that reach the `/check` limiter. -/
def checkEvents (es : List ReqEvent) : List (String × Int) :=
  es.filterMap (fun e => if routeIsCheck e.route then some (e.ip, e.time) else none)

/-- The `(ip, time)` requests that reach the shared `/deploy`,
`/rollback` limiter. -/
def deployEvents (es : List ReqEvent) : List (String × Int) :=
  es.filterMap (fun e => if routeIsDeployOrRollback e.route then some (e.ip, e.time) else none)

theorem handledTimes_cons (e : ReqEvent) (out : ReqOutcome)
    (rest : List (ReqEvent × ReqOutcome)) (sel : Route → Bool) (ip : String) :
    handledTimes ((e, out) :: rest) sel ip =
      if sel e.route = true ∧ e.ip = ip ∧ out = ReqOutcome.handled
      then e.time :: handledTimes rest sel ip
      else handledTimes rest sel ip := by
  simp only [handledTimes, List.filterMap_cons]
  by_cases h : sel e.route = true ∧ e.ip = ip ∧ out = ReqOutcome.handled
  · rw [if_pos h, if_pos h]
  · rw [if_neg h, if_neg h]

theorem serve_check_sublist (es : List ReqEvent) (st : ServerState) (ip : String) :
    (handledTimes (serveRun st es).2 routeIsCheck ip).Sublist
      (admittedTimes (rlRun st.checkRL (checkEvents es)).2 ip) := by
  induction es generalizing st with
  | nil => simp [serveRun, handledTimes, rlRun, admittedTimes]
  | cons e es ih =>
    have hrun : (serveRun st (e :: es)).2 =
        (e, (serveStep st e).2) :: (serveRun (serveStep st e).1 es).2 := rfl
    rw [hrun, handledTimes_cons]
    cases hroute : e.route
    case check =>
      have hstep1 : (serveStep st e).1.checkRL = (rlAllow st.checkRL e.ip e.time).2 := by
        simp [serveStep, hroute, limitedStep]
      have hstep2 : (serveStep st e).2 =
          (if (rlAllow st.checkRL e.ip e.time).1 = false then ReqOutcome.rateLimited
           else if e.authOk = false then ReqOutcome.unauthorized
           else ReqOutcome.handled) := by
        simp [serveStep, hroute, limitedStep]
      have hce : checkEvents (e :: es) = (e.ip, e.time) :: checkEvents es := by
        simp [checkEvents, List.filterMap_cons, routeIsCheck, hroute]
      rw [hce]
      have hrlrun : (rlRun st.checkRL ((e.ip, e.time) :: checkEvents es)).2 =
          ((e.ip, e.time), (rlAllow st.checkRL e.ip e.time).1) ::
            (rlRun (rlAllow st.checkRL e.ip e.time).2 (checkEvents es)).2 := rfl
      rw [hrlrun, admittedTimes_cons, hstep2]
      dsimp only
      have ihs := ih (serveStep st e).1
      rw [hstep1] at ihs
      by_cases hip : e.ip = ip
      · by_cases hok : (rlAllow st.checkRL e.ip e.time).1 = true
        · by_cases hauth : e.authOk = false
          · have hout : (if (rlAllow st.checkRL e.ip e.time).1 = false
                then ReqOutcome.rateLimited
                else if e.authOk = false then ReqOutcome.unauthorized
                else ReqOutcome.handled) = ReqOutcome.unauthorized := by
              rw [if_neg (by simp [hok]), if_pos hauth]
            rw [if_neg (fun h => by
                  rw [hout] at h
                  exact ReqOutcome.noConfusion h.2.2),
              if_pos ⟨hip, hok⟩]
            exact ihs.cons _
          · have hout : (if (rlAllow st.checkRL e.ip e.time).1 = false
                then ReqOutcome.rateLimited
                else if e.authOk = false then ReqOutcome.unauthorized
                else ReqOutcome.handled) = ReqOutcome.handled := by
              rw [if_neg (by simp [hok]), if_neg hauth]
            rw [if_pos ⟨rfl, hip, hout⟩, if_pos ⟨hip, hok⟩]
            exact ihs.cons₂ _
        · have hokf : (rlAllow st.checkRL e.ip e.time).1 = false := by
            cases hx : (rlAllow st.checkRL e.ip e.time).1
            · rfl
            · exact absurd hx hok
          have hout : (if (rlAllow st.checkRL e.ip e.time).1 = false
              then ReqOutcome.rateLimited
              else if e.authOk = false then ReqOutcome.unauthorized
              else ReqOutcome.handled) = ReqOutcome.rateLimited := by
            rw [if_pos hokf]
          rw [if_neg (fun h => by
                rw [hout] at h
                exact ReqOutcome.noConfusion h.2.2),
            if_neg (fun h => hok h.2)]
          exact ihs
      · rw [if_neg (fun h => hip h.2.1), if_neg (fun h => hip h.1)]
        exact ihs
    case deploy =>
      have hstep1 : (serveStep st e).1.checkRL = st.checkRL := by
        simp [serveStep, hroute]
      have hce : checkEvents (e :: es) = checkEvents es := by
        simp [checkEvents, List.filterMap_cons, routeIsCheck, hroute]
      rw [hce, if_neg (fun h => Bool.noConfusion h.1)]
      have ihs := ih (serveStep st e).1
      rw [hstep1] at ihs
      exact ihs
    case rollback =>
      have hstep1 : (serveStep st e).1.checkRL = st.checkRL := by
        simp [serveStep, hroute]
      have hce : checkEvents (e :: es) = checkEvents es := by
        simp [checkEvents, List.filterMap_cons, routeIsCheck, hroute]
      rw [hce, if_neg (fun h => Bool.noConfusion h.1)]
      have ihs := ih (serveStep st e).1
      rw [hstep1] at ihs
      exact ihs
    case health =>
      have hstep1 : (serveStep st e).1.checkRL = st.checkRL := by
        simp [serveStep, hroute]
      have hce : checkEvents (e :: es) = checkEvents es := by
        simp [checkEvents, List.filterMap_cons, routeIsCheck, hroute]
      rw [hce, if_neg (fun h => Bool.noConfusion h.1)]
      have ihs := ih (serveStep st e).1
      rw [hstep1] at ihs
      exact ihs

theorem serve_deploy_sublist (es : List ReqEvent) (st : ServerState) (ip : String) :
    (handledTimes (serveRun st es).2 routeIsDeployOrRollback ip).Sublist
      (admittedTimes (rlRun st.deployRL (deployEvents es)).2 ip) := by
  induction es generalizing st with
  | nil => simp [serveRun, handledTimes, rlRun, admittedTimes]
  | cons e es ih =>
    have hrun : (serveRun st (e :: es)).2 =
        (e, (serveStep st e).2) :: (serveRun (serveStep st e).1 es).2 := rfl
    rw [hrun, handledTimes_cons]
    cases hroute : e.route
    case deploy =>
      have hstep1 : (serveStep st e).1.deployRL = (rlAllow st.deployRL e.ip e.time).2 := by
        simp [serveStep, hroute, limitedStep]
      have hstep2 : (serveStep st e).2 =
          (if (rlAllow st.deployRL e.ip e.time).1 = false then ReqOutcome.rateLimited
           else if e.authOk = false then ReqOutcome.unauthorized
           else ReqOutcome.handled) := by
        simp [serveStep, hroute, limitedStep]
      have hce : deployEvents (e :: es) = (e.ip, e.time) :: deployEvents es := by
        simp [deployEvents, List.filterMap_cons, routeIsDeployOrRollback, hroute]
      rw [hce]
      have hrlrun : (rlRun st.deployRL ((e.ip, e.time) :: deployEvents es)).2 =
          ((e.ip, e.time), (rlAllow st.deployRL e.ip e.time).1) ::
            (rlRun (rlAllow st.deployRL e.ip e.time).2 (deployEvents es)).2 := rfl
      rw [hrlrun, admittedTimes_cons, hstep2]
      dsimp only
      have ihs := ih (serveStep st e).1
      rw [hstep1] at ihs
      by_cases hip : e.ip = ip
      · by_cases hok : (rlAllow st.deployRL e.ip e.time).1 = true
        · by_cases hauth : e.authOk = false
          · have hout : (if (rlAllow st.deployRL e.ip e.time).1 = false
                then ReqOutcome.rateLimited
                else if e.authOk = false then ReqOutcome.unauthorized
                else ReqOutcome.handled) = ReqOutcome.unauthorized := by
              rw [if_neg (by simp [hok]), if_pos hauth]
            rw [if_neg (fun h => by
                  rw [hout] at h
                  exact ReqOutcome.noConfusion h.2.2),
              if_pos (And.intro hip hok)]
            exact ihs.cons _
          · have hout : (if (rlAllow st.deployRL e.ip e.time).1 = false
                then ReqOutcome.rateLimited
                else if e.authOk = false then ReqOutcome.unauthorized
                else ReqOutcome.handled) = ReqOutcome.handled := by
              rw [if_neg (by simp [hok]), if_neg hauth]
            rw [if_pos (show routeIsDeployOrRollback Route.deploy = true ∧ e.ip = ip ∧
                (if (rlAllow st.deployRL e.ip e.time).1 = false then ReqOutcome.rateLimited
                  else if e.authOk = false then ReqOutcome.unauthorized
                  else ReqOutcome.handled) = ReqOutcome.handled from ⟨rfl, hip, hout⟩),
              if_pos (And.intro hip hok)]
            exact ihs.cons₂ _
        · have hokf : (rlAllow st.deployRL e.ip e.time).1 = false := by
            cases hx : (rlAllow st.deployRL e.ip e.time).1
            · rfl
            · exact absurd hx hok
          have hout : (if (rlAllow st.deployRL e.ip e.time).1 = false
              then ReqOutcome.rateLimited
              else if e.authOk = false then ReqOutcome.unauthorized
              else ReqOutcome.handled) = ReqOutcome.rateLimited := by
            rw [if_pos hokf]
          rw [if_neg (fun h => by
                rw [hout] at h
                exact ReqOutcome.noConfusion h.2.2),
            if_neg (fun h => hok h.2)]
          exact ihs
      · rw [if_neg (fun h => hip h.2.1), if_neg (fun h => hip h.1)]
        exact ihs
    case rollback =>
      have hstep1 : (serveStep st e).1.deployRL = (rlAllow st.deployRL e.ip e.time).2 := by
        simp [serveStep, hroute, limitedStep]
      have hstep2 : (serveStep st e).2 =
          (if (rlAllow st.deployRL e.ip e.time).1 = false then ReqOutcome.rateLimited
           else if e.authOk = false then ReqOutcome.unauthorized
           else ReqOutcome.handled) := by
        simp [serveStep, hroute, limitedStep]
      have hce : deployEvents (e :: es) = (e.ip, e.time) :: deployEvents es := by
        simp [deployEvents, List.filterMap_cons, routeIsDeployOrRollback, hroute]
      rw [hce]
      have hrlrun : (rlRun st.deployRL ((e.ip, e.time) :: deployEvents es)).2 =
          ((e.ip, e.time), (rlAllow st.deployRL e.ip e.time).1) ::
            (rlRun (rlAllow st.deployRL e.ip e.time).2 (deployEvents es)).2 := rfl
      rw [hrlrun, admittedTimes_cons, hstep2]
      dsimp only
      have ihs := ih (serveStep st e).1
      rw [hstep1] at ihs
      by_cases hip : e.ip = ip
      · by_cases hok : (rlAllow st.deployRL e.ip e.time).1 = true
        · by_cases hauth : e.authOk = false
          · have hout : (if (rlAllow st.deployRL e.ip e.time).1 = false
                then ReqOutcome.rateLimited
                else if e.authOk = false then ReqOutcome.unauthorized
                else ReqOutcome.handled) = ReqOutcome.unauthorized := by
              rw [if_neg (by simp [hok]), if_pos hauth]
            rw [if_neg (fun h => by
                  rw [hout] at h
                  exact ReqOutcome.noConfusion h.2.2),
              if_pos (And.intro hip hok)]
            exact ihs.cons _
          · have hout : (if (rlAllow st.deployRL e.ip e.time).1 = false
                then ReqOutcome.rateLimited
                else if e.authOk = false then ReqOutcome.unauthorized
                else ReqOutcome.handled) = ReqOutcome.handled := by
              rw [if_neg (by simp [hok]), if_neg hauth]
            rw [if_pos (show routeIsDeployOrRollback Route.rollback = true ∧ e.ip = ip ∧
                (if (rlAllow st.deployRL e.ip e.time).1 = false then ReqOutcome.rateLimited
                  else if e.authOk = false then ReqOutcome.unauthorized
                  else ReqOutcome.handled) = ReqOutcome.handled from ⟨rfl, hip, hout⟩),
              if_pos (And.intro hip hok)]
            exact ihs.cons₂ _
        · have hokf : (rlAllow st.deployRL e.ip e.time).1 = false := by
            cases hx : (rlAllow st.deployRL e.ip e.time).1
            · rfl
            · exact absurd hx hok
          have hout : (if (rlAllow st.deployRL e.ip e.time).1 = false
              then ReqOutcome.rateLimited
              else if e.authOk = false then ReqOutcome.unauthorized
              else ReqOutcome.handled) = ReqOutcome.rateLimited := by
            rw [if_pos hokf]
          rw [if_neg (fun h => by
                rw [hout] at h
                exact ReqOutcome.noConfusion h.2.2),
            if_neg (fun h => hok h.2)]
          exact ihs
      · rw [if_neg (fun h => hip h.2.1), if_neg (fun h => hip h.1)]
        exact ihs
    case check =>
      have hstep1 : (serveStep st e).1.deployRL = st.deployRL := by
        simp [serveStep, hroute, limitedStep]
      have hce : deployEvents (e :: es) = deployEvents es := by
        simp [deployEvents, List.filterMap_cons, routeIsDeployOrRollback, hroute]
      rw [hce, if_neg (fun h => Bool.noConfusion h.1)]
      have ihs := ih (serveStep st e).1
      rw [hstep1] at ihs
      exact ihs
    case health =>
      have hstep1 : (serveStep st e).1.deployRL = st.deployRL := by
        simp [serveStep, hroute]
      have hce : deployEvents (e :: es) = deployEvents es := by
        simp [deployEvents, List.filterMap_cons, routeIsDeployOrRollback, hroute]
      rw [hce, if_neg (fun h => Bool.noConfusion h.1)]
      have ihs := ih (serveStep st e).1
      rw [hstep1] at ihs
      exact ihs

theorem filterMap_ite_sublist {α β : Type} (l : List α) (f : α → β) (p : α → Prop)
    [DecidablePred p] :
    (l.filterMap (fun x => if p x then some (f x) else none)).Sublist (l.map f) := by
  induction l with
  | nil => simp
  | cons x xs ih =>
    rw [List.filterMap_cons, List.map_cons]
    by_cases hp : p x
    · rw [if_pos hp]
      exact ih.cons₂ _
    · rw [if_neg hp]
      exact ih.cons _

/-- Claim C8: starting from the daemon's initial state (`/check` limited
to 60 per 60-second window, `/deploy` and `/rollback` sharing a pool of
10 per 60-second window, each keyed on the remote host), for any
request sequence with nondecreasing clock readings and any rolling
60-second window `(a, a+60]`, the number of `/check` handler
invocations for one host is at most 60 and the number of `/deploy` plus
`/rollback` handler invocations is at most 10; moreover a request the
limiter rejects is answered with 429 (`rateLimited`) and its handler is
never invoked. -/
theorem claim_C8 (es : List ReqEvent) (ip : String) (a : Int)
    (hmono : (es.map (fun e => e.time)).Pairwise (· ≤ ·)) :
    ((handledTimes (serveRun initServerState es).2 routeIsCheck ip).filter
        (fun u => a < u ∧ u ≤ a + 60)).length ≤ 60 ∧
    ((handledTimes (serveRun initServerState es).2 routeIsDeployOrRollback ip).filter
        (fun u => a < u ∧ u ≤ a + 60)).length ≤ 10 ∧
    (∀ (st : ServerState) (e : ReqEvent),
      (e.route = Route.check → (rlAllow st.checkRL e.ip e.time).1 = false →
        (serveStep st e).2 = ReqOutcome.rateLimited) ∧
      ((e.route = Route.deploy ∨ e.route = Route.rollback) →
        (rlAllow st.deployRL e.ip e.time).1 = false →
        (serveStep st e).2 = ReqOutcome.rateLimited)) := by
  have hmonoC : ((checkEvents es).filterMap
      (fun x => if x.1 = ip then some x.2 else none)).Pairwise (· ≤ ·) := by
    refine List.Pairwise.sublist ?_ hmono
    have s1 : ((checkEvents es).filterMap
        (fun x => if x.1 = ip then some x.2 else none)).Sublist
        ((checkEvents es).map (fun x => x.2)) :=
      filterMap_ite_sublist _ _ _
    have s2 : (checkEvents es).Sublist (es.map (fun e => (e.ip, e.time))) :=
      filterMap_ite_sublist _ _ _
    have s3 := s2.map (fun x : String × Int => x.2)
    rw [List.map_map] at s3
    exact s1.trans s3
  have hmonoD : ((deployEvents es).filterMap
      (fun x => if x.1 = ip then some x.2 else none)).Pairwise (· ≤ ·) := by
    refine List.Pairwise.sublist ?_ hmono
    have s1 : ((deployEvents es).filterMap
        (fun x => if x.1 = ip then some x.2 else none)).Sublist
        ((deployEvents es).map (fun x => x.2)) :=
      filterMap_ite_sublist _ _ _
    have s2 : (deployEvents es).Sublist (es.map (fun e => (e.ip, e.time))) :=
      filterMap_ite_sublist _ _ _
    have s3 := s2.map (fun x : String × Int => x.2)
    rw [List.map_map] at s3
    exact s1.trans s3
  refine ⟨?_, ?_, ?_⟩
  · have hAt := rlRun_at_admit 60 (by norm_num) 60 (checkEvents es) ip hmonoC
      (newRateLimiter 60 60) rfl rfl [] 0 rfl (Or.inl rfl)
    have hAt2 : ∀ A t B,
        admittedTimes (rlRun (newRateLimiter 60 60) (checkEvents es)).2 ip = A ++ t :: B →
        ((A ++ [t]).filter (fun u => t - 60 < u)).length ≤ 60 := by
      intro A t B h
      have hx := hAt A t B h
      simpa using hx
    have hroll := rolling_window_bound 60 60
      (admittedTimes (rlRun (newRateLimiter 60 60) (checkEvents es)).2 ip) hAt2 a
    have hsub := serve_check_sublist es initServerState ip
    have hlen := ((hsub.filter (fun u => decide (a < u ∧ u ≤ a + 60)))).length_le
    exact le_trans hlen hroll
  · have hAt := rlRun_at_admit 60 (by norm_num) 10 (deployEvents es) ip hmonoD
      (newRateLimiter 10 60) rfl rfl [] 0 rfl (Or.inl rfl)
    have hAt2 : ∀ A t B,
        admittedTimes (rlRun (newRateLimiter 10 60) (deployEvents es)).2 ip = A ++ t :: B →
        ((A ++ [t]).filter (fun u => t - 60 < u)).length ≤ 10 := by
      intro A t B h
      have hx := hAt A t B h
      simpa using hx
    have hroll := rolling_window_bound 60 10
      (admittedTimes (rlRun (newRateLimiter 10 60) (deployEvents es)).2 ip) hAt2 a
    have hsub := serve_deploy_sublist es initServerState ip
    have hlen := ((hsub.filter (fun u => decide (a < u ∧ u ≤ a + 60)))).length_le
    exact le_trans hlen hroll
  · intro st e
    constructor
    · intro hr hallow
      simp [serveStep, hr, limitedStep, hallow]
    · intro hr hallow
      rcases hr with hr | hr <;> simp [serveStep, hr, limitedStep, hallow]

theorem claim_C8_witness :
    (([⟨Route.check, "1.2.3.4", 5, true⟩] : List ReqEvent).map
      (fun e => e.time)).Pairwise (· ≤ ·) ∧
    ((handledTimes (serveRun initServerState [⟨Route.check, "1.2.3.4", 5, true⟩]).2
        routeIsCheck "1.2.3.4").filter (fun u => 0 < u ∧ u ≤ 0 + 60)).length ≤ 60 :=
  ⟨by simp, (claim_C8 [⟨Route.check, "1.2.3.4", 5, true⟩] "1.2.3.4" 0 (by simp)).1⟩

/-! ### HTTP handler control flow (`handleCheck`, `handleDeploy`,
`handleRollback` in `cmd/simplecdd/main.go`) -/

/-- One manifest file mapping. -/
structure FileEntry where
  archivePath : String
  dest : String
  mode : String
  hash : String
deriving DecidableEq, Repr

/-- The manifest's optional hook script archive paths. -/
structure HooksEntry where
  serverPre : String
  serverPost : String
deriving DecidableEq, Repr

/-- The manifest's optional systemd unit description. -/
structure SystemdEntry where
  unitArchivePath : String
  unitDest : String
  enable : Bool
  restart : Bool
deriving DecidableEq, Repr

/-- The deployment manifest, as far as `handleDeploy`'s control flow
inspects it (`hasInventory` models `manifest.Inventory != nil`). -/
structure Manifest where
  name : String
  files : List FileEntry
  hooks : Option HooksEntry
  systemd : Option SystemdEntry
  hasInventory : Bool
deriving DecidableEq, Repr

/-- A `/deploy` request together with the oracles for every fallible
step the handler takes, in source order.  `preScriptOk` is whether
`os.Chmod` of the pre-hook script path succeeds, i.e. whether the
script file exists in the extracted staging tree; likewise
`postScriptOk`. -/
structure DeployReq where
  methodPost : Bool
  lockFree : Bool
  multipartOk : Bool
  part1Name : Option String
  manifestOk : Bool
  manifest : Manifest
  part2Name : Option String
  tmpDirOk : Bool
  extractOk : Bool
  inventoryOk : Bool
  backupOk : Bool
  preScriptOk : Bool
  preHookOk : Bool
  placeOk : String → Bool
  systemdOk : Bool
  postScriptOk : Bool
  postHookOk : Bool

/-- The log lines `handleDeploy` can stream, abstracted to events. -/
inductive DeployEvent
  | errReadingMultipart
  | errExpectedManifestPart
  | errParsingManifest
  | errExpectedArchivePart
  | errCreatingTempDir
  | errExtracting
  | startingDeployment
  | reconcilingInventory
  | errInventory
  | warnBackupFailed
  | runPreHook
  | errPreHook
  | skipUnchanged (dest : String)
  | placed (dest : String)
  | errPlacing (dest : String)
  | unitInstalled
  | errSystemd
  | runPostHook
  | warnPostHook
  | deploymentComplete
deriving DecidableEq, Repr

/-- An HTTP handler's observable result: the committed status code and
the streamed log. -/
structure HandlerResult where
  status : Nat
  log : List DeployEvent
deriving DecidableEq, Repr

/-- `manifest.Hooks != nil && manifest.Hooks.ServerPre != ""`. -/
def manifestHasPre (m : Manifest) : Bool :=
  match m.hooks with
  | some h => h.serverPre != ""
  | none => false

/-- `manifest.Hooks != nil && manifest.Hooks.ServerPost != ""`. -/
def manifestHasPost (m : Manifest) : Bool :=
  match m.hooks with
  | some h => h.serverPost != ""
  | none => false

/-- `manifest.Systemd != nil && manifest.Systemd.UnitArchivePath != ""`. -/
def manifestHasUnit (m : Manifest) : Bool :=
  match m.systemd with
  | some s => s.unitArchivePath != ""
  | none => false

/-- The file placement loop: empty archive paths are logged as skipped,
a placement failure ends the loop (and the deployment). -/
def placeLoop (placeOk : String → Bool) : List FileEntry → List DeployEvent × Bool
  | [] => ([], true)
  | f :: fs =>
    if f.archivePath = "" then
      let r := placeLoop placeOk fs
      (DeployEvent.skipUnchanged f.dest :: r.1, r.2)
    else if placeOk f.dest then
      let r := placeLoop placeOk fs
      (DeployEvent.placed f.dest :: r.1, r.2)
    else
      ([DeployEvent.errPlacing f.dest], false)

/-- `handleDeploy`: wrong method is answered 405 and a held lock 409
before the response starts; after that `WriteHeader(200)` commits the
status and every failure is streamed into the 200 body.  The pre-hook
and post-hook blocks run only when the script's chmod succeeds
(`os.Chmod(...) == nil`); a failing pre-hook aborts, a failing
post-hook only warns. -/
def runDeploy (req : DeployReq) : HandlerResult :=
  if ¬ req.methodPost then { status := 405, log := [] }
  else if ¬ req.lockFree then { status := 409, log := [] }
  else if ¬ req.multipartOk then
    { status := 200, log := [DeployEvent.errReadingMultipart] }
  else if req.part1Name ≠ some "manifest" then
    { status := 200, log := [DeployEvent.errExpectedManifestPart] }
  else if ¬ req.manifestOk then
    { status := 200, log := [DeployEvent.errParsingManifest] }
  else if req.part2Name ≠ some "archive" then
    { status := 200, log := [DeployEvent.errExpectedArchivePart] }
  else if ¬ req.tmpDirOk then
    { status := 200, log := [DeployEvent.errCreatingTempDir] }
  else if ¬ req.extractOk then
    { status := 200, log := [DeployEvent.errExtracting] }
  else
    let log0 := [DeployEvent.startingDeployment]
    if req.manifest.hasInventory = true ∧ req.inventoryOk = false then
      { status := 200, log := log0 ++ [DeployEvent.reconcilingInventory, DeployEvent.errInventory] }
    else
      let log1 := log0 ++
        (if req.manifest.hasInventory = true then [DeployEvent.reconcilingInventory] else [])
      let log2 := log1 ++ (if req.backupOk = false then [DeployEvent.warnBackupFailed] else [])
      if manifestHasPre req.manifest = true ∧ req.preScriptOk = true ∧ req.preHookOk = false then
        { status := 200, log := log2 ++ [DeployEvent.runPreHook, DeployEvent.errPreHook] }
      else
        let log3 := log2 ++
          (if manifestHasPre req.manifest = true ∧ req.preScriptOk = true
           then [DeployEvent.runPreHook] else [])
        let pl := placeLoop req.placeOk req.manifest.files
        if pl.2 = false then { status := 200, log := log3 ++ pl.1 }
        else
          let log4 := log3 ++ pl.1
          if manifestHasUnit req.manifest = true ∧ req.systemdOk = false then
            { status := 200, log := log4 ++ [DeployEvent.errSystemd] }
          else
            let log5 := log4 ++
              (if manifestHasUnit req.manifest = true then [DeployEvent.unitInstalled] else [])
            let log6 := log5 ++
              (if manifestHasPost req.manifest = true ∧ req.postScriptOk = true then
                (if req.postHookOk = true then [DeployEvent.runPostHook]
                 else [DeployEvent.runPostHook, DeployEvent.warnPostHook])
               else [])
            { status := 200, log := log6 ++ [DeployEvent.deploymentComplete] }

/-- `handleCheck`'s status: wrong method 405, undecodable JSON 400,
otherwise 200. -/
def runCheck (methodPost jsonOk : Bool) : Nat :=
  if ¬ methodPost then 405
  else if ¬ jsonOk then 400
  else 200

/-- `handleRollback`'s status: wrong method 405; undecodable JSON or an
empty project name 400; held lock 409; otherwise 200 (streamed). -/
def runRollbackStatus (methodPost jsonOk nameNonEmpty lockFree : Bool) : Nat :=
  if ¬ methodPost then 405
  else if ¬ jsonOk ∨ ¬ nameNonEmpty then 400
  else if ¬ lockFree then 409
  else 200

/-- Manifest for the C9 counterexample request. -/
def c9Manifest : Manifest :=
  { name := "app", files := [], hooks := none, systemd := none, hasInventory := false }

/-- A well-formed POST to `/deploy` whose body is not multipart. -/
def c9Req : DeployReq :=
  { methodPost := true, lockFree := true, multipartOk := false, part1Name := none,
    manifestOk := true, manifest := c9Manifest, part2Name := none, tmpDirOk := true,
    extractOk := true, inventoryOk := true, backupOk := true, preScriptOk := true,
    preHookOk := true, placeOk := fun _ => true, systemdOk := true, postScriptOk := true,
    postHookOk := true }

/-- Claim C9 as literally stated is false at a concrete input: a POST to
`/deploy` whose body is not parseable as multipart is answered with
HTTP 200 (the status was committed before the body is read), not 400 or
405. -/
theorem claim_C9_cex :
    (runDeploy c9Req).status = 200 ∧
      ¬ ((runDeploy c9Req).status = 400 ∨ (runDeploy c9Req).status = 405) := by
  constructor
  · decide
  · decide

/-- Claim C9 (amended): wrong-method requests are answered 405 on all
three authenticated routes, and an undecodable JSON body on `/check` or
`/rollback` (or a missing project name on `/rollback`) is answered 400;
but on `/deploy` every malformed body — non-multipart, missing or
misordered parts, undecodable manifest JSON — is answered with HTTP 200
(the handler has already committed the status) and only an ERROR line in
the streamed body marks the failure; the deployment never completes. -/
theorem claim_C9 (cm cj rm rj rn rl : Bool) (req : DeployReq) :
    (cm = false → runCheck cm cj = 405) ∧
    (cm = true → cj = false → runCheck cm cj = 400) ∧
    (rm = false → runRollbackStatus rm rj rn rl = 405) ∧
    (rm = true → (rj = false ∨ rn = false) → runRollbackStatus rm rj rn rl = 400) ∧
    (req.methodPost = false → runDeploy req = { status := 405, log := [] }) ∧
    (req.methodPost = true → req.lockFree = true →
      (req.multipartOk = false ∨ req.part1Name ≠ some "manifest" ∨
        req.manifestOk = false ∨ req.part2Name ≠ some "archive") →
      (runDeploy req).status = 200 ∧
        DeployEvent.deploymentComplete ∉ (runDeploy req).log) := by
  refine ⟨?_, ?_, ?_, ?_, ?_, ?_⟩
  · intro h; simp [runCheck, h]
  · intro h1 h2; simp [runCheck, h1, h2]
  · intro h; simp [runRollbackStatus, h]
  · intro h1 h2
    rcases h2 with h | h <;> simp [runRollbackStatus, h1, h]
  · intro h; simp [runDeploy, h]
  · intro hm hl hmal
    rw [runDeploy]
    rw [if_neg (by simp [hm]), if_neg (by simp [hl])]
    by_cases h1 : req.multipartOk
    · rw [if_neg (by simp [h1])]
      by_cases h2 : req.part1Name = some "manifest"
      · rw [if_neg (by simp [h2])]
        by_cases h3 : req.manifestOk
        · rw [if_neg (by simp [h3])]
          by_cases h4 : req.part2Name = some "archive"
          · exfalso
            rcases hmal with h | h | h | h
            · rw [h1] at h; cases h  -- h1 : multipartOk = true vs h : = false
            · exact h h2
            · rw [h3] at h; cases h
            · exact h h4
          · rw [if_pos h4]
            exact ⟨rfl, by decide⟩
        · rw [if_pos h3]
          exact ⟨rfl, by decide⟩
      · rw [if_pos h2]
        exact ⟨rfl, by decide⟩
    · rw [if_pos h1]
      exact ⟨rfl, by decide⟩

theorem claim_C9_witness :
    ((false : Bool) = false → runCheck false true = 405) ∧
    runCheck false true = 405 ∧
    ((runDeploy c9Req).status = 200 ∧
      DeployEvent.deploymentComplete ∉ (runDeploy c9Req).log) :=
  ⟨(claim_C9 false true false true true true c9Req).1,
   (claim_C9 false true false true true true c9Req).1 rfl,
   (claim_C9 false true false true true true c9Req).2.2.2.2.2 rfl rfl (Or.inl rfl)⟩

/-- Dropping the pre-hook from a manifest's hook entry. -/
def hooksWithoutPre : Option HooksEntry → Option HooksEntry
  | some h => some { h with serverPre := "" }
  | none => none

/-- Dropping the post-hook from a manifest's hook entry. -/
def hooksWithoutPost : Option HooksEntry → Option HooksEntry
  | some h => some { h with serverPost := "" }
  | none => none

/-- Claim C10: when the configured pre-hook (or post-hook) script is
absent from the extracted staging tree — so its chmod fails — the hook
block is silently skipped and the handler behaves exactly as if no such
hook were configured; by contrast a present pre-hook that exits
non-zero aborts the deployment (the stream carries the pre-hook error
and never reaches the completion line). -/
theorem claim_C10 (req : DeployReq) :
    (req.preScriptOk = false →
      runDeploy req = runDeploy { req with
        manifest := { req.manifest with hooks := hooksWithoutPre req.manifest.hooks } }) ∧
    (req.postScriptOk = false →
      runDeploy req = runDeploy { req with
        manifest := { req.manifest with hooks := hooksWithoutPost req.manifest.hooks } }) ∧
    (req.methodPost = true → req.lockFree = true → req.multipartOk = true →
      req.part1Name = some "manifest" → req.manifestOk = true →
      req.part2Name = some "archive" → req.tmpDirOk = true → req.extractOk = true →
      (req.manifest.hasInventory = true → req.inventoryOk = true) →
      manifestHasPre req.manifest = true → req.preScriptOk = true → req.preHookOk = false →
      DeployEvent.errPreHook ∈ (runDeploy req).log ∧
        DeployEvent.deploymentComplete ∉ (runDeploy req).log) := by
  refine ⟨?_, ?_, ?_⟩
  · intro hps
    have hpre2 : manifestHasPre { req.manifest with
        hooks := hooksWithoutPre req.manifest.hooks } = false := by
      cases hh : req.manifest.hooks <;> simp [manifestHasPre, hooksWithoutPre, hh]
    have hpost2 : manifestHasPost { req.manifest with
        hooks := hooksWithoutPre req.manifest.hooks } = manifestHasPost req.manifest := by
      cases hh : req.manifest.hooks <;> simp [manifestHasPost, hooksWithoutPre, hh]
    have hunit2 : manifestHasUnit { req.manifest with
        hooks := hooksWithoutPre req.manifest.hooks } = manifestHasUnit req.manifest := rfl
    simp only [runDeploy]
    dsimp only
    rw [hpre2, hpost2, hunit2]
    simp [hps]
  · intro hps
    have hpre2 : manifestHasPre { req.manifest with
        hooks := hooksWithoutPost req.manifest.hooks } = manifestHasPre req.manifest := by
      cases hh : req.manifest.hooks <;> simp [manifestHasPre, hooksWithoutPost, hh]
    have hpost2 : manifestHasPost { req.manifest with
        hooks := hooksWithoutPost req.manifest.hooks } = false := by
      cases hh : req.manifest.hooks <;> simp [manifestHasPost, hooksWithoutPost, hh]
    have hunit2 : manifestHasUnit { req.manifest with
        hooks := hooksWithoutPost req.manifest.hooks } = manifestHasUnit req.manifest := rfl
    simp only [runDeploy]
    dsimp only
    rw [hpre2, hpost2, hunit2]
    simp [hps]
  · intro hm hl h1 h2 h3 h4 h5 h6 hinv hhaspre hpso hpho
    rw [runDeploy]
    rw [if_neg (by simp [hm]), if_neg (by simp [hl]), if_neg (by simp [h1]),
      if_neg (by simp [h2]), if_neg (by simp [h3]), if_neg (by simp [h4]),
      if_neg (by simp [h5]), if_neg (by simp [h6])]
    rw [if_neg (fun h => by rw [hinv h.1] at h; exact Bool.noConfusion h.2)]
    rw [if_pos ⟨hhaspre, hpso, hpho⟩]
    constructor
    · by_cases hi : req.manifest.hasInventory = true <;>
        by_cases hb : req.backupOk = false <;> simp [hi, hb]
    · by_cases hi : req.manifest.hasInventory = true <;>
        by_cases hb : req.backupOk = false <;> simp [hi, hb]

/-- Manifest with a configured server pre-hook, used by the C10 witness. -/
def c10Manifest : Manifest :=
  { name := "app", files := [],
    hooks := some { serverPre := "scripts/pre-deploy.sh", serverPost := "" },
    systemd := none, hasInventory := false }

/-- A deploy whose configured pre-hook script is absent from the staging
tree (its chmod fails). -/
def c10ReqMissing : DeployReq :=
  { methodPost := true, lockFree := true, multipartOk := true,
    part1Name := some "manifest", manifestOk := true, manifest := c10Manifest,
    part2Name := some "archive", tmpDirOk := true, extractOk := true,
    inventoryOk := true, backupOk := true, preScriptOk := false, preHookOk := true,
    placeOk := fun _ => true, systemdOk := true, postScriptOk := true,
    postHookOk := true }

/-- The same deploy with the script present but exiting non-zero. -/
def c10ReqFailing : DeployReq :=
  { c10ReqMissing with preScriptOk := true, preHookOk := false }

theorem claim_C10_witness :
    c10ReqMissing.preScriptOk = false ∧
    runDeploy c10ReqMissing = runDeploy { c10ReqMissing with
      manifest := { c10ReqMissing.manifest with
        hooks := hooksWithoutPre c10ReqMissing.manifest.hooks } } ∧
    (DeployEvent.errPreHook ∈ (runDeploy c10ReqFailing).log ∧
      DeployEvent.deploymentComplete ∉ (runDeploy c10ReqFailing).log) :=
  ⟨rfl, (claim_C10 c10ReqMissing).1 rfl,
   (claim_C10 c10ReqFailing).2.2 rfl rfl rfl rfl rfl rfl rfl rfl (fun _ => rfl)
     (by decide) rfl rfl⟩
